import Mathlib

/-!
Shallow embedding of `src/minesweeper.py`: the `Sentence` constraint class and
the `MinesweeperAI` inference engine, together with proofs of the behavioural
properties of the engine (soundness, termination of the propagation loop,
marking idempotence, fixed-point stability, and the move-selection queries).

Python sets are modelled as `Finset`, the knowledge base (a Python list of
`Sentence` objects) as `List Sentence`, Python ints as `ℤ`.  Loops that
iterate over a list by index while the list is mutated are modelled by
index-passing recursion on the evolving list, which matches CPython's
list-iterator semantics (the iterator holds a bare index into the live list).
-/

set_option autoImplicit false

abbrev Cell : Type := ℤ × ℤ

/-- A concrete total order on cells, used to enumerate a Python set.  The
iteration order of a Python `set` is unspecified; any fixed enumeration is a
faithful instance of it. -/
def cellLE (a b : Cell) : Prop :=
  a.1 < b.1 ∨ (a.1 = b.1 ∧ a.2 ≤ b.2)

instance : DecidableRel cellLE := by
  unfold cellLE; infer_instance

instance : IsTrans Cell cellLE :=
  ⟨by intro a b c hab hbc; unfold cellLE at *; omega⟩

instance : IsAntisymm Cell cellLE :=
  ⟨by
    intro a b hab hba
    have h1 : a.1 = b.1 ∧ a.2 = b.2 := by unfold cellLE at *; omega
    exact Prod.ext h1.1 h1.2⟩

instance : IsTotal Cell cellLE :=
  ⟨by intro a b; unfold cellLE; omega⟩

/-- Sort a multiset of cells by `cellLE` using insertion sort (structural
recursion, so concrete states evaluate inside the kernel). -/
def sortCells (m : Multiset Cell) : List Cell :=
  Quotient.liftOn m (fun l => l.insertionSort cellLE)
    (fun a b hab =>
      List.eq_of_perm_of_sorted
        (((List.perm_insertionSort cellLE a).trans hab).trans
          (List.perm_insertionSort cellLE b).symm)
        (List.sorted_insertionSort cellLE a) (List.sorted_insertionSort cellLE b))

/-- Enumerate a set of cells (the `for cell in s` iteration). -/
def enumCells (S : Finset Cell) : List Cell :=
  sortCells S.val

/-- `Sentence(cells, count)`: a set of board cells and a count of how many of
them are mines.  `__eq__` compares both fields, which is the derived
decidable equality. -/
structure Sentence where
  cells : Finset Cell
  count : ℤ
  deriving DecidableEq

namespace Sentence

/-- `Sentence.known_mines`: returns the cell set when the sentence is
non-empty and its count equals the number of cells; otherwise the Python
method falls through and returns `None`. -/
def known_mines (s : Sentence) : Option (Finset Cell) :=
  if s.cells ≠ ∅ ∧ s.count = (s.cells.card : ℤ) then some s.cells else none

/-- `Sentence.known_safes`: returns the cell set when the count is zero and
the cell set is non-empty; otherwise the Python method falls through and
returns `None`. -/
def known_safes (s : Sentence) : Option (Finset Cell) :=
  if s.count = 0 ∧ s.cells ≠ ∅ then some s.cells else none

/-- `Sentence.mark_mine`: if the cell is a member, remove it and decrement
the count. -/
def mark_mine (c : Cell) (s : Sentence) : Sentence :=
  if c ∈ s.cells then ⟨s.cells.erase c, s.count - 1⟩ else s

/-- `Sentence.mark_safe`: if the cell is a member, remove it; the count is
unchanged. -/
def mark_safe (c : Cell) (s : Sentence) : Sentence :=
  if c ∈ s.cells then ⟨s.cells.erase c, s.count⟩ else s

end Sentence

/-- The state of a `MinesweeperAI` instance.  The `random` field models the
`self.random` attribute created by `make_random_move`; it is absent until the
first call, modelled here as the empty set at construction. -/
structure MinesweeperAI where
  height : ℤ
  width : ℤ
  moves_made : Finset Cell
  mines : Finset Cell
  safes : Finset Cell
  knowledge : List Sentence
  random : Finset Cell
  deriving DecidableEq

namespace MinesweeperAI

/-- `MinesweeperAI.__init__(height, width)`. -/
def init (h w : ℤ) : MinesweeperAI :=
  ⟨h, w, ∅, ∅, ∅, [], ∅⟩

/-- `MinesweeperAI.mark_mine`: add the cell to `self.mines` and call
`Sentence.mark_mine` on every sentence in the knowledge base. -/
def mark_mine (st : MinesweeperAI) (c : Cell) : MinesweeperAI :=
  { st with mines := insert c st.mines,
            knowledge := st.knowledge.map (Sentence.mark_mine c) }

/-- `MinesweeperAI.mark_safe`: add the cell to `self.safes` and call
`Sentence.mark_safe` on every sentence in the knowledge base. -/
def mark_safe (st : MinesweeperAI) (c : Cell) : MinesweeperAI :=
  { st with safes := insert c st.safes,
            knowledge := st.knowledge.map (Sentence.mark_safe c) }

/-- In `add_knowledge` step 4, `if sentence.known_safes(): for cell in
sentence.known_safes().copy(): self.mark_safe(cell)`. -/
def markSafesStep (st : MinesweeperAI) (s : Sentence) : MinesweeperAI :=
  match s.known_safes with
  | some S => (enumCells S).foldl mark_safe st
  | none => st

/-- In `add_knowledge` step 4, `if sentence.known_mines(): for cell in
sentence.known_mines().copy(): self.mark_mine(cell)`. -/
def markMinesStep (st : MinesweeperAI) (s : Sentence) : MinesweeperAI :=
  match s.known_mines with
  | some S => (enumCells S).foldl mark_mine st
  | none => st

/-- Step 4 of `add_knowledge`: `for sentence in self.knowledge:` with the
safe-marking then (on the now possibly shrunk sentence object, which is still
at index `i`) the mine-marking.  Marking never adds or removes list entries,
so the iteration visits exactly the indices `0, …, len-1`; the fuel is the
list length at entry. -/
def marksPassAux : ℕ → ℕ → MinesweeperAI → MinesweeperAI
  | 0, _, st => st
  | fuel+1, i, st =>
    match st.knowledge.get? i with
    | none => st
    | some s =>
      let st1 := markSafesStep st s
      let st2 :=
        match st1.knowledge.get? i with
        | some t => markMinesStep st1 t
        | none => st1
      marksPassAux fuel (i+1) st2

/-- Step 4 of `add_knowledge` as one sweep over the knowledge base. -/
def marksPass (st : MinesweeperAI) : MinesweeperAI :=
  marksPassAux st.knowledge.length 0 st

/-- `Sentence(sentence2.cells - sentence1.cells, sentence2.count -
sentence1.count)` in step 5 of `add_knowledge`. -/
def derivedSentence (s1 s2 : Sentence) : Sentence :=
  ⟨s2.cells \ s1.cells, s2.count - s1.count⟩

/-- The inner `for sentence2 in self.knowledge:` loop of step 5, iterating by
index over the live list while the body appends the derived sentence and then
removes (the first element equal to) `sentence2`.  A successful firing leaves
the length unchanged, so the length at entry is enough fuel. -/
def innerAux (s1 : Sentence) : ℕ → List Sentence → ℕ → List Sentence
  | 0, lst, _ => lst
  | fuel+1, lst, i2 =>
    if h : i2 < lst.length then
      if s1 = lst[i2] ∨ s1.cells = ∅ ∨ lst[i2].cells = ∅ then
        innerAux s1 fuel lst (i2+1)
      else if s1.cells ⊆ lst[i2].cells ∧ s1.cells.card ≠ lst[i2].cells.card then
        innerAux s1 fuel ((lst ++ [derivedSentence s1 lst[i2]]).erase lst[i2]) (i2+1)
      else
        innerAux s1 fuel lst (i2+1)
    else lst

/-- The outer `for sentence1 in self.knowledge:` loop of step 5. -/
def outerAux : ℕ → List Sentence → ℕ → List Sentence
  | 0, lst, _ => lst
  | fuel+1, lst, i1 =>
    if h : i1 < lst.length then
      outerAux fuel (innerAux lst[i1] lst.length lst 0) (i1+1)
    else lst

/-- Step 5 of `add_knowledge`: the pairwise subset derivation, guarded by
`if len(self.knowledge) >= 2`. -/
def subsetStep (lst : List Sentence) : List Sentence :=
  if 2 ≤ lst.length then outerAux lst.length lst 0 else lst

/-- `for sentence in self.knowledge.copy(): if len(sentence.cells) == 0:
self.knowledge.remove(sentence)` — iterate over a snapshot, removing the
first value-equal element from the live list. -/
def removeEmpties (lst : List Sentence) : List Sentence :=
  lst.foldl (fun acc s => if s.cells = ∅ then acc.erase s else acc) lst

/-- One pass of the `while True` propagation loop of `add_knowledge`,
returning the new state together with the value of the comparison snapshot
`test` at comparison time.  `test = self.knowledge.copy()` is a shallow copy:
it aliases the sentence objects, whose in-place mutations during step 4 are
therefore reflected in `test`, while the appends/removals of steps 5 and of
the empty-sentence sweep are not.  Hence at the `self.knowledge == test`
comparison, `test`'s value is the knowledge list as it stood right after
step 4. -/
def passOf (st : MinesweeperAI) : MinesweeperAI × List Sentence :=
  let st1 := marksPass st
  let k2 := subsetStep st1.knowledge
  ({ st1 with knowledge := removeEmpties k2 }, st1.knowledge)

/-- Termination measure for the propagation loop: total number of cells in
the knowledge base plus the number of sentences. -/
def kbMeasure (st : MinesweeperAI) : ℕ :=
  (st.knowledge.map (fun s => s.cells.card)).sum + st.knowledge.length

/-- The `while True` loop of `add_knowledge`, with explicit fuel; `none`
means the fuel ran out before the `self.knowledge == test` exit fired. -/
def loopFuel : ℕ → MinesweeperAI → Option MinesweeperAI
  | 0, _ => none
  | n+1, st =>
    let p := passOf st
    if p.1.knowledge = p.2 then some p.1 else loopFuel n p.1

/-- The propagation loop run to its fixed point.  `kbMeasure st + 1` units of
fuel always suffice (proved below), so the default branch is never taken. -/
def runLoop (st : MinesweeperAI) : MinesweeperAI :=
  (loopFuel (kbMeasure st + 1) st).getD st

/-- The nine positions scanned by the neighbour loops `for i in
range(cell[0]-1, cell[0]+2): for j in range(cell[1]-1, cell[1]+2)`. -/
def neighborCandidates (cell : Cell) : List Cell :=
  [cell.1 - 1, cell.1, cell.1 + 1].flatMap
    (fun i => [cell.2 - 1, cell.2, cell.2 + 1].map (fun j => (i, j)))

/-- `0 <= i < self.height and 0 <= j < self.width`. -/
def inBounds (h w : ℤ) (p : Cell) : Prop :=
  0 ≤ p.1 ∧ p.1 < h ∧ 0 ≤ p.2 ∧ p.2 < w

instance (h w : ℤ) (p : Cell) : Decidable (inBounds h w p) :=
  inferInstanceAs (Decidable (0 ≤ p.1 ∧ p.1 < h ∧ 0 ≤ p.2 ∧ p.2 < w))

/-- The body of the neighbour loop in `add_knowledge`: skip the cell itself
and out-of-bounds positions; skip neighbours in `moves_made` or `safes`;
decrement the running count for neighbours in `mines`; collect the rest. -/
def ingestStep (st : MinesweeperAI) (cell : Cell) (acc : Finset Cell × ℤ)
    (p : Cell) : Finset Cell × ℤ :=
  if p = cell then acc
  else if inBounds st.height st.width p then
    if p ∉ st.moves_made ∧ p ∉ st.safes then
      if p ∈ st.mines then (acc.1, acc.2 - 1) else (insert p acc.1, acc.2)
    else acc
  else acc

/-- Steps 1–3 of `add_knowledge`: record the move, mark the cell safe, build
the new sentence from the unresolved in-bounds neighbours and append it. -/
def add_knowledge_pre (st : MinesweeperAI) (cell : Cell) (count : ℤ) :
    MinesweeperAI :=
  let stA := { st with moves_made := insert cell st.moves_made }
  let stB := stA.mark_safe cell
  let nb := (neighborCandidates cell).foldl (ingestStep stB cell) (∅, count)
  { stB with knowledge := stB.knowledge ++ [⟨nb.1, nb.2⟩] }

/-- `MinesweeperAI.add_knowledge`. -/
def add_knowledge (st : MinesweeperAI) (cell : Cell) (count : ℤ) :
    MinesweeperAI :=
  runLoop (add_knowledge_pre st cell count)

/-- `MinesweeperAI.make_safe_move`: if `self.safes` is non-empty, return the
first safe cell not yet played (in iteration order over the set); when the
loop finds none, or when `self.safes` is empty, the method returns `None`.
The state is read but never written. -/
def make_safe_move (st : MinesweeperAI) : Option Cell × MinesweeperAI :=
  (if st.safes.Nonempty then
     (enumCells st.safes).find? (fun c => !(decide (c ∈ st.moves_made)))
   else none, st)

/-- The full board grid, `for i in range(self.height): for j in
range(self.width)`. -/
def gridCells (st : MinesweeperAI) : List Cell :=
  (List.range st.height.toNat).flatMap
    (fun i => (List.range st.width.toNat).map (fun j => ((i : ℤ), (j : ℤ))))

/-- The candidate set built by `make_random_move`: grid cells not in
`moves_made` and not in `mines`, accumulated into `self.random`. -/
def randomCandidates (st : MinesweeperAI) : Finset Cell :=
  (gridCells st).foldl
    (fun acc p => if p ∉ st.moves_made ∧ p ∉ st.mines then insert p acc
                  else acc) ∅

/-- `MinesweeperAI.make_random_move`: overwrite `self.random` with the fresh
candidate set, then return a cell of it (modelling `random.choice` by the
head of the enumeration) or `None` when empty. -/
def make_random_move (st : MinesweeperAI) : Option Cell × MinesweeperAI :=
  let r := randomCandidates st
  let st1 := { st with random := r }
  (if r.Nonempty then (enumCells r).head? else none, st1)

/-- The in-bounds neighbours of a cell, as a set: the nine scanned positions
minus the cell itself and anything out of bounds. -/
def neighborsFinset (h w : ℤ) (cell : Cell) : Finset Cell :=
  ((neighborCandidates cell).filter
      (fun p => decide (p ≠ cell ∧ inBounds h w p))).toFinset

/-- The true number of mines of the assignment `M` among the in-bounds
neighbours of `cell` — the count the board reports for a revealed cell
(`Minesweeper.nearby_mines`). -/
def trueNeighborCount (h w : ℤ) (M : Finset Cell) (cell : Cell) : ℤ :=
  ((neighborsFinset h w cell) ∩ M).card

/-- A driver that reveals the cells of `obs` in order, feeding the engine the
true neighbour-mine count of each. -/
def runGame (h w : ℤ) (M : Finset Cell) (obs : List Cell) : MinesweeperAI :=
  obs.foldl (fun st c => st.add_knowledge c (trueNeighborCount h w M c))
    (init h w)

end MinesweeperAI

/-- Total number of cells appearing in a knowledge base (with multiplicity
over sentences); together with the list length this is the termination
measure of the propagation loop. -/
def kbWeight (lst : List Sentence) : ℕ :=
  (lst.map (fun s => s.cells.card)).sum

/-- A sentence is true of a mine assignment `M` when exactly `count` of its
cells lie in `M`. -/
def TrueS (M : Finset Cell) (s : Sentence) : Prop :=
  ((s.cells ∩ M).card : ℤ) = s.count

/-- The soundness invariant of the engine with respect to a mine assignment
`M`: every recorded mine is a real mine, no recorded safe or probed cell is a
mine, and every sentence of the knowledge base is true of `M`. -/
def SoundInv (M : Finset Cell) (st : MinesweeperAI) : Prop :=
  (∀ c ∈ st.mines, c ∈ M) ∧ (∀ c ∈ st.safes, c ∉ M) ∧
    (∀ c ∈ st.moves_made, c ∉ M) ∧ ∀ s ∈ st.knowledge, TrueS M s

/-! ### Basic lemmas about sentence- and engine-level marking -/

theorem Sentence.mark_safe_cells (c : Cell) (s : Sentence) :
    (Sentence.mark_safe c s).cells = s.cells.erase c := by
  unfold Sentence.mark_safe
  split
  · rfl
  · next h => simp [Finset.erase_eq_of_not_mem h]

theorem Sentence.mark_safe_count (c : Cell) (s : Sentence) :
    (Sentence.mark_safe c s).count = s.count := by
  unfold Sentence.mark_safe
  split <;> rfl

theorem Sentence.mark_mine_cells (c : Cell) (s : Sentence) :
    (Sentence.mark_mine c s).cells = s.cells.erase c := by
  unfold Sentence.mark_mine
  split
  · rfl
  · next h => simp [Finset.erase_eq_of_not_mem h]

theorem Sentence.mark_safe_idem (c : Cell) (s : Sentence) :
    Sentence.mark_safe c (Sentence.mark_safe c s) = Sentence.mark_safe c s := by
  unfold Sentence.mark_safe
  split
  · simp
  · rfl

theorem Sentence.mark_mine_idem (c : Cell) (s : Sentence) :
    Sentence.mark_mine c (Sentence.mark_mine c s) = Sentence.mark_mine c s := by
  unfold Sentence.mark_mine
  split
  · simp
  · rfl

namespace MinesweeperAI

@[simp] theorem mark_safe_height (st : MinesweeperAI) (c : Cell) :
    (st.mark_safe c).height = st.height := rfl

@[simp] theorem mark_safe_width (st : MinesweeperAI) (c : Cell) :
    (st.mark_safe c).width = st.width := rfl

@[simp] theorem mark_safe_moves (st : MinesweeperAI) (c : Cell) :
    (st.mark_safe c).moves_made = st.moves_made := rfl

@[simp] theorem mark_safe_mines (st : MinesweeperAI) (c : Cell) :
    (st.mark_safe c).mines = st.mines := rfl

@[simp] theorem mark_safe_safes (st : MinesweeperAI) (c : Cell) :
    (st.mark_safe c).safes = insert c st.safes := rfl

@[simp] theorem mark_safe_knowledge (st : MinesweeperAI) (c : Cell) :
    (st.mark_safe c).knowledge = st.knowledge.map (Sentence.mark_safe c) := rfl

@[simp] theorem mark_safe_random (st : MinesweeperAI) (c : Cell) :
    (st.mark_safe c).random = st.random := rfl

@[simp] theorem mark_mine_height (st : MinesweeperAI) (c : Cell) :
    (st.mark_mine c).height = st.height := rfl

@[simp] theorem mark_mine_width (st : MinesweeperAI) (c : Cell) :
    (st.mark_mine c).width = st.width := rfl

@[simp] theorem mark_mine_moves (st : MinesweeperAI) (c : Cell) :
    (st.mark_mine c).moves_made = st.moves_made := rfl

@[simp] theorem mark_mine_mines (st : MinesweeperAI) (c : Cell) :
    (st.mark_mine c).mines = insert c st.mines := rfl

@[simp] theorem mark_mine_safes (st : MinesweeperAI) (c : Cell) :
    (st.mark_mine c).safes = st.safes := rfl

@[simp] theorem mark_mine_knowledge (st : MinesweeperAI) (c : Cell) :
    (st.mark_mine c).knowledge = st.knowledge.map (Sentence.mark_mine c) := rfl

@[simp] theorem mark_mine_random (st : MinesweeperAI) (c : Cell) :
    (st.mark_mine c).random = st.random := rfl

end MinesweeperAI

namespace MinesweeperAI

theorem mark_safe_mark_safe (st : MinesweeperAI) (c : Cell) :
    (st.mark_safe c).mark_safe c = st.mark_safe c := by
  have hfun : Sentence.mark_safe c ∘ Sentence.mark_safe c = Sentence.mark_safe c :=
    funext (Sentence.mark_safe_idem c)
  cases st with
  | mk h w mv mi sa kb rd =>
    simp [MinesweeperAI.mark_safe, List.map_map, hfun]

theorem mark_mine_mark_mine (st : MinesweeperAI) (c : Cell) :
    (st.mark_mine c).mark_mine c = st.mark_mine c := by
  have hfun : Sentence.mark_mine c ∘ Sentence.mark_mine c = Sentence.mark_mine c :=
    funext (Sentence.mark_mine_idem c)
  cases st with
  | mk h w mv mi sa kb rd =>
    simp [MinesweeperAI.mark_mine, List.map_map, hfun]

end MinesweeperAI

/-! ### Claims C9, C4, C3 -/

/-- Claim C9: for every engine state and cell, calling `mark_safe` twice in a
row yields exactly the same engine state as calling it once, and likewise for
`mark_mine`; in particular the second `mark_mine` decrements no sentence's
count again. -/
theorem claim_C9_marking_idempotent (st : MinesweeperAI) (c : Cell) :
    (st.mark_safe c).mark_safe c = st.mark_safe c ∧
      (st.mark_mine c).mark_mine c = st.mark_mine c :=
  ⟨MinesweeperAI.mark_safe_mark_safe st c, MinesweeperAI.mark_mine_mark_mine st c⟩

/-- Claim C4 counterexample: on a sentence with empty cell set and count 0,
`known_safes` returns nothing (`None` in the source), not the empty set as
the claim states. -/
theorem claim_C4_counterexample :
    Sentence.known_safes ⟨∅, 0⟩ = none ∧
      Sentence.known_safes ⟨∅, 0⟩ ≠ some (∅ : Finset Cell) := by
  constructor
  · rfl
  · intro h; cases h

/-- Claim C4 amended: `known_safes` returns the sentence's cell set for
count 0 with a non-empty cell set; for count 0 with an empty cell set it
returns nothing (not the empty set); for nonzero count it returns nothing. -/
theorem claim_C4_known_safes_amended (s : Sentence) :
    s.known_safes =
      if s.count = 0 then (if s.cells = ∅ then none else some s.cells)
      else none := by
  unfold Sentence.known_safes
  by_cases h1 : s.count = 0 <;> by_cases h2 : s.cells = ∅ <;> simp [h1, h2]

/-- Claim C3 counterexample: the state reached from a fresh engine by the
public calls `mark_mine((0,0))` then `mark_safe((0,0))` has `(0,0)` in both
`safes` and `mines`, so `safes` and `mines` are not disjoint in every
reachable state. -/
theorem claim_C3_counterexample :
    ((0 : ℤ), (0 : ℤ)) ∈
        (((MinesweeperAI.init 8 8).mark_mine ((0 : ℤ), (0 : ℤ))).mark_safe
          ((0 : ℤ), (0 : ℤ))).safes ∧
      ((0 : ℤ), (0 : ℤ)) ∈
        (((MinesweeperAI.init 8 8).mark_mine ((0 : ℤ), (0 : ℤ))).mark_safe
          ((0 : ℤ), (0 : ℤ))).mines := by
  exact ⟨by decide, by decide⟩

/-- Claim C3 amended: the engine performs no cross-check, so marking the same
cell both ways puts it in both sets (see the counterexample); disjointness of
`safes` and `mines` is preserved by `mark_mine` and `mark_safe` exactly when
the marked cell is not already recorded the opposite way. -/
theorem claim_C3_disjoint_amended (st : MinesweeperAI) (c : Cell)
    (hd : ∀ x ∈ st.safes, x ∉ st.mines)
    (hs : c ∉ st.safes) (hm : c ∉ st.mines) :
    (∀ x ∈ (st.mark_mine c).safes, x ∉ (st.mark_mine c).mines) ∧
      (∀ x ∈ (st.mark_safe c).safes, x ∉ (st.mark_safe c).mines) := by
  constructor
  · intro x hx
    simp only [MinesweeperAI.mark_mine_safes] at hx
    simp only [MinesweeperAI.mark_mine_mines, Finset.mem_insert]
    push_neg
    exact ⟨fun hxc => hs (hxc ▸ hx), hd x hx⟩
  · intro x hx
    simp only [MinesweeperAI.mark_safe_safes, Finset.mem_insert] at hx
    simp only [MinesweeperAI.mark_safe_mines]
    rcases hx with rfl | hx
    · exact hm
    · exact hd x hx

/-- Witness for the amended claim C3, at the fresh engine and cell (0,0). -/
theorem claim_C3_witness :
    ((∀ x ∈ (MinesweeperAI.init 8 8).safes, x ∉ (MinesweeperAI.init 8 8).mines) ∧
        ((0 : ℤ), (0 : ℤ)) ∉ (MinesweeperAI.init 8 8).safes ∧
        ((0 : ℤ), (0 : ℤ)) ∉ (MinesweeperAI.init 8 8).mines) ∧
      ((∀ x ∈ ((MinesweeperAI.init 8 8).mark_mine ((0 : ℤ), (0 : ℤ))).safes,
          x ∉ ((MinesweeperAI.init 8 8).mark_mine ((0 : ℤ), (0 : ℤ))).mines) ∧
        (∀ x ∈ ((MinesweeperAI.init 8 8).mark_safe ((0 : ℤ), (0 : ℤ))).safes,
          x ∉ ((MinesweeperAI.init 8 8).mark_safe ((0 : ℤ), (0 : ℤ))).mines)) :=
  ⟨⟨by decide, by decide, by decide⟩,
    claim_C3_disjoint_amended (MinesweeperAI.init 8 8) ((0 : ℤ), (0 : ℤ))
      (by decide) (by decide) (by decide)⟩

/-! ### Claims C8 and C10: move-selection queries -/

theorem sortCells_coe (m : Multiset Cell) : (sortCells m : Multiset Cell) = m :=
  Quotient.inductionOn m fun l => Quot.sound (List.perm_insertionSort cellLE l)

theorem enumCells_mem {S : Finset Cell} {x : Cell} : x ∈ enumCells S ↔ x ∈ S := by
  rw [← Multiset.mem_coe, show ((enumCells S : List Cell) : Multiset Cell) = S.val from
    sortCells_coe S.val, Finset.mem_def]

theorem enumCells_eq_nil {S : Finset Cell} : enumCells S = [] ↔ S = ∅ := by
  constructor
  · intro h
    have hc : ((enumCells S : List Cell) : Multiset Cell) = S.val := sortCells_coe S.val
    rw [h] at hc
    exact Finset.val_eq_zero.mp hc.symm
  · intro h
    subst h
    rfl

/-- Claim C8: `make_safe_move` returns a cell in `safes` outside `moves_made`
iff one exists (returning nothing both when `safes` is empty and when every
safe cell was already probed), and the state is unchanged. -/
theorem claim_C8_make_safe_move (st : MinesweeperAI) :
    st.make_safe_move.2 = st ∧
      (∀ c : Cell, st.make_safe_move.1 = some c →
        c ∈ st.safes ∧ c ∉ st.moves_made) ∧
      (st.make_safe_move.1 = none ↔ ¬∃ c ∈ st.safes, c ∉ st.moves_made) := by
  refine ⟨rfl, ?_, ?_⟩
  · intro c hc
    unfold MinesweeperAI.make_safe_move at hc
    by_cases hne : st.safes.Nonempty
    · simp only [if_pos hne] at hc
      have h1 := List.mem_of_find?_eq_some hc
      have h2 := List.find?_some hc
      simp only [Bool.not_eq_eq_eq_not, Bool.not_true, decide_eq_false_iff_not] at h2
      exact ⟨enumCells_mem.mp h1, by simpa using h2⟩
    · simp only [if_neg hne] at hc
      cases hc
  · unfold MinesweeperAI.make_safe_move
    by_cases hne : st.safes.Nonempty
    · simp only [if_pos hne, List.find?_eq_none]
      constructor
      · intro h ⟨c, hcs, hcm⟩
        have := h c (enumCells_mem.mpr hcs)
        simp at this
        exact hcm this
      · intro h c hcl
        by_contra hb
        rw [Bool.not_eq_true', decide_eq_false_iff_not] at hb
        exact h ⟨c, enumCells_mem.mp hcl, hb⟩
    · simp only [if_neg hne, true_iff]
      rintro ⟨c, hcs, -⟩
      exact hne ⟨c, hcs⟩

/-- Witness for claim C8 at a state with one unplayed safe cell. -/
theorem claim_C8_witness :
    (MinesweeperAI.make_safe_move
          ⟨8, 8, ∅, ∅, {((0 : ℤ), (0 : ℤ))}, [], ∅⟩).1 = some ((0 : ℤ), (0 : ℤ)) ∧
      ((MinesweeperAI.make_safe_move
            ⟨8, 8, ∅, ∅, {((0 : ℤ), (0 : ℤ))}, [], ∅⟩).2 =
          ⟨8, 8, ∅, ∅, {((0 : ℤ), (0 : ℤ))}, [], ∅⟩ ∧
        (∀ c : Cell,
          (MinesweeperAI.make_safe_move
              ⟨8, 8, ∅, ∅, {((0 : ℤ), (0 : ℤ))}, [], ∅⟩).1 = some c →
            c ∈ (⟨8, 8, ∅, ∅, {((0 : ℤ), (0 : ℤ))}, [], ∅⟩ : MinesweeperAI).safes ∧
              c ∉ (⟨8, 8, ∅, ∅, {((0 : ℤ), (0 : ℤ))}, [], ∅⟩ : MinesweeperAI).moves_made) ∧
        ((MinesweeperAI.make_safe_move
              ⟨8, 8, ∅, ∅, {((0 : ℤ), (0 : ℤ))}, [], ∅⟩).1 = none ↔
          ¬∃ c ∈ (⟨8, 8, ∅, ∅, {((0 : ℤ), (0 : ℤ))}, [], ∅⟩ : MinesweeperAI).safes,
            c ∉ (⟨8, 8, ∅, ∅, {((0 : ℤ), (0 : ℤ))}, [], ∅⟩ : MinesweeperAI).moves_made)) :=
  ⟨by decide, claim_C8_make_safe_move ⟨8, 8, ∅, ∅, {((0 : ℤ), (0 : ℤ))}, [], ∅⟩⟩

theorem foldl_filter_insert_mem (P : Cell → Prop) [DecidablePred P] :
    ∀ (l : List Cell) (acc : Finset Cell) (x : Cell),
      x ∈ l.foldl (fun acc p => if P p then insert p acc else acc) acc ↔
        x ∈ acc ∨ (x ∈ l ∧ P x)
  | [], acc, x => by simp
  | a :: l, acc, x => by
    rw [List.foldl_cons, foldl_filter_insert_mem P l _ x]
    by_cases hPa : P a
    · simp only [if_pos hPa, Finset.mem_insert, List.mem_cons]
      constructor
      · rintro ((rfl | h) | h)
        · exact Or.inr ⟨Or.inl rfl, hPa⟩
        · exact Or.inl h
        · exact Or.inr ⟨Or.inr h.1, h.2⟩
      · rintro (h | ⟨(rfl | h), hPx⟩)
        · exact Or.inl (Or.inr h)
        · exact Or.inl (Or.inl rfl)
        · exact Or.inr ⟨h, hPx⟩
    · simp only [if_neg hPa, List.mem_cons]
      constructor
      · rintro (h | h)
        · exact Or.inl h
        · exact Or.inr ⟨Or.inr h.1, h.2⟩
      · rintro (h | ⟨(rfl | h), hPx⟩)
        · exact Or.inl h
        · exact absurd hPx hPa
        · exact Or.inr ⟨h, hPx⟩

/-- Claim C10: `make_random_move` overwrites the `random` attribute with the
freshly computed candidate set (grid cells neither played nor known mines),
leaves the other state components unchanged, returns a cell of the candidate
set when one exists, and returns nothing exactly when it is empty. -/
theorem claim_C10_make_random_move (st : MinesweeperAI) :
    st.make_random_move.2 = { st with random := MinesweeperAI.randomCandidates st } ∧
      (∀ x : Cell, x ∈ st.make_random_move.2.random ↔
        x ∈ MinesweeperAI.gridCells st ∧ x ∉ st.moves_made ∧ x ∉ st.mines) ∧
      (st.make_random_move.2.moves_made = st.moves_made ∧
        st.make_random_move.2.safes = st.safes ∧
        st.make_random_move.2.mines = st.mines ∧
        st.make_random_move.2.knowledge = st.knowledge) ∧
      (∀ c : Cell, st.make_random_move.1 = some c →
        c ∈ MinesweeperAI.randomCandidates st) ∧
      (st.make_random_move.1 = none ↔ MinesweeperAI.randomCandidates st = ∅) := by
  refine ⟨rfl, ?_, ⟨rfl, rfl, rfl, rfl⟩, ?_, ?_⟩
  · intro x
    show x ∈ MinesweeperAI.randomCandidates st ↔ _
    unfold MinesweeperAI.randomCandidates
    rw [foldl_filter_insert_mem (fun p => p ∉ st.moves_made ∧ p ∉ st.mines)]
    simp [and_assoc]
  · intro c hc
    unfold MinesweeperAI.make_random_move at hc
    by_cases hne : (MinesweeperAI.randomCandidates st).Nonempty
    · simp only [if_pos hne] at hc
      exact enumCells_mem.mp (List.mem_of_mem_head? (hc ▸ Option.mem_def.mpr rfl))
    · simp only [if_neg hne] at hc
      cases hc
  · unfold MinesweeperAI.make_random_move
    by_cases hne : (MinesweeperAI.randomCandidates st).Nonempty
    · simp only [if_pos hne, List.head?_eq_none_iff, enumCells_eq_nil]
    · simp only [if_neg hne, true_iff]
      exact Finset.not_nonempty_iff_eq_empty.mp hne

/-- Witness for claim C10 on a 1×1 board with nothing played. -/
theorem claim_C10_witness :
    (MinesweeperAI.init 1 1).make_random_move.1 = some ((0 : ℤ), (0 : ℤ)) ∧
      ((MinesweeperAI.init 1 1).make_random_move.2 =
          { MinesweeperAI.init 1 1 with
              random := MinesweeperAI.randomCandidates (MinesweeperAI.init 1 1) } ∧
        (∀ x : Cell, x ∈ (MinesweeperAI.init 1 1).make_random_move.2.random ↔
          x ∈ MinesweeperAI.gridCells (MinesweeperAI.init 1 1) ∧
            x ∉ (MinesweeperAI.init 1 1).moves_made ∧
            x ∉ (MinesweeperAI.init 1 1).mines) ∧
        ((MinesweeperAI.init 1 1).make_random_move.2.moves_made =
            (MinesweeperAI.init 1 1).moves_made ∧
          (MinesweeperAI.init 1 1).make_random_move.2.safes =
            (MinesweeperAI.init 1 1).safes ∧
          (MinesweeperAI.init 1 1).make_random_move.2.mines =
            (MinesweeperAI.init 1 1).mines ∧
          (MinesweeperAI.init 1 1).make_random_move.2.knowledge =
            (MinesweeperAI.init 1 1).knowledge) ∧
        (∀ c : Cell, (MinesweeperAI.init 1 1).make_random_move.1 = some c →
          c ∈ MinesweeperAI.randomCandidates (MinesweeperAI.init 1 1)) ∧
        ((MinesweeperAI.init 1 1).make_random_move.1 = none ↔
          MinesweeperAI.randomCandidates (MinesweeperAI.init 1 1) = ∅)) :=
  ⟨by decide, claim_C10_make_random_move (MinesweeperAI.init 1 1)⟩

/-! ### The weight of a knowledge base and the elementary steps' effect on it -/

theorem kbWeight_append (l1 l2 : List Sentence) :
    kbWeight (l1 ++ l2) = kbWeight l1 + kbWeight l2 := by
  unfold kbWeight
  rw [List.map_append, List.sum_append]

theorem kbWeight_nil : kbWeight [] = 0 := rfl

theorem kbWeight_cons (s : Sentence) (l : List Sentence) :
    kbWeight (s :: l) = s.cells.card + kbWeight l := by
  unfold kbWeight
  rw [List.map_cons, List.sum_cons]

theorem kbWeight_perm {l1 l2 : List Sentence} (h : l1.Perm l2) :
    kbWeight l1 = kbWeight l2 := by
  unfold kbWeight
  exact (h.map (fun s => s.cells.card)).sum_eq

theorem kbWeight_erase {a : Sentence} {l : List Sentence} (h : a ∈ l) :
    kbWeight l = a.cells.card + kbWeight (l.erase a) :=
  (kbWeight_perm (List.perm_cons_erase h)).trans (kbWeight_cons a (l.erase a))

theorem kbWeight_map_le (f : Sentence → Sentence)
    (hf : ∀ s : Sentence, (f s).cells.card ≤ s.cells.card) (l : List Sentence) :
    kbWeight (l.map f) ≤ kbWeight l := by
  unfold kbWeight
  rw [List.map_map]
  exact List.sum_le_sum fun s _ => hf s

theorem mark_safe_cells_card_le (c : Cell) (s : Sentence) :
    (Sentence.mark_safe c s).cells.card ≤ s.cells.card := by
  rw [Sentence.mark_safe_cells]
  exact Finset.card_erase_le

theorem mark_mine_cells_card_le (c : Cell) (s : Sentence) :
    (Sentence.mark_mine c s).cells.card ≤ s.cells.card := by
  rw [Sentence.mark_mine_cells]
  exact Finset.card_erase_le

namespace MinesweeperAI

theorem mark_safe_kb (st : MinesweeperAI) (c : Cell) :
    kbWeight (st.mark_safe c).knowledge ≤ kbWeight st.knowledge ∧
      (st.mark_safe c).knowledge.length = st.knowledge.length := by
  rw [mark_safe_knowledge]
  exact ⟨kbWeight_map_le _ (mark_safe_cells_card_le c) _, List.length_map _ _⟩

theorem mark_mine_kb (st : MinesweeperAI) (c : Cell) :
    kbWeight (st.mark_mine c).knowledge ≤ kbWeight st.knowledge ∧
      (st.mark_mine c).knowledge.length = st.knowledge.length := by
  rw [mark_mine_knowledge]
  exact ⟨kbWeight_map_le _ (mark_mine_cells_card_le c) _, List.length_map _ _⟩

theorem foldl_mark_safe_kb (l : List Cell) :
    ∀ st : MinesweeperAI,
      kbWeight (l.foldl mark_safe st).knowledge ≤ kbWeight st.knowledge ∧
        (l.foldl mark_safe st).knowledge.length = st.knowledge.length := by
  induction l with
  | nil => exact fun st => ⟨le_refl _, rfl⟩
  | cons a l ih =>
    intro st
    rw [List.foldl_cons]
    exact ⟨(ih (st.mark_safe a)).1.trans (st.mark_safe_kb a).1,
      (ih (st.mark_safe a)).2.trans (st.mark_safe_kb a).2⟩

theorem foldl_mark_mine_kb (l : List Cell) :
    ∀ st : MinesweeperAI,
      kbWeight (l.foldl mark_mine st).knowledge ≤ kbWeight st.knowledge ∧
        (l.foldl mark_mine st).knowledge.length = st.knowledge.length := by
  induction l with
  | nil => exact fun st => ⟨le_refl _, rfl⟩
  | cons a l ih =>
    intro st
    rw [List.foldl_cons]
    exact ⟨(ih (st.mark_mine a)).1.trans (st.mark_mine_kb a).1,
      (ih (st.mark_mine a)).2.trans (st.mark_mine_kb a).2⟩

theorem markSafesStep_kb (st : MinesweeperAI) (s : Sentence) :
    kbWeight (markSafesStep st s).knowledge ≤ kbWeight st.knowledge ∧
      (markSafesStep st s).knowledge.length = st.knowledge.length := by
  unfold markSafesStep
  cases s.known_safes with
  | none => exact ⟨le_refl _, rfl⟩
  | some S => exact foldl_mark_safe_kb (enumCells S) st

theorem markMinesStep_kb (st : MinesweeperAI) (s : Sentence) :
    kbWeight (markMinesStep st s).knowledge ≤ kbWeight st.knowledge ∧
      (markMinesStep st s).knowledge.length = st.knowledge.length := by
  unfold markMinesStep
  cases s.known_mines with
  | none => exact ⟨le_refl _, rfl⟩
  | some S => exact foldl_mark_mine_kb (enumCells S) st

theorem marksPassAux_kb (fuel : ℕ) :
    ∀ (i : ℕ) (st : MinesweeperAI),
      kbWeight (marksPassAux fuel i st).knowledge ≤ kbWeight st.knowledge ∧
        (marksPassAux fuel i st).knowledge.length = st.knowledge.length := by
  induction fuel with
  | zero => exact fun i st => ⟨le_refl _, rfl⟩
  | succ fuel ih =>
    intro i st
    show kbWeight (marksPassAux (fuel + 1) i st).knowledge ≤ _ ∧ _
    unfold marksPassAux
    cases hkb : st.knowledge.get? i with
    | none => exact ⟨le_refl _, rfl⟩
    | some s =>
      simp only
      set st1 := markSafesStep st s with hst1
      cases hkb1 : st1.knowledge.get? i with
      | none =>
        exact ⟨(ih (i+1) st1).1.trans (markSafesStep_kb st s).1,
          (ih (i+1) st1).2.trans (markSafesStep_kb st s).2⟩
      | some t =>
        refine ⟨((ih (i+1) _).1.trans (markMinesStep_kb st1 t).1).trans
          (markSafesStep_kb st s).1, ?_⟩
        exact ((ih (i+1) _).2.trans (markMinesStep_kb st1 t).2).trans
          (markSafesStep_kb st s).2

theorem marksPass_kb (st : MinesweeperAI) :
    kbWeight (marksPass st).knowledge ≤ kbWeight st.knowledge ∧
      (marksPass st).knowledge.length = st.knowledge.length :=
  marksPassAux_kb st.knowledge.length 0 st

end MinesweeperAI

namespace MinesweeperAI

theorem derivedSentence_card_lt {s1 s2 : Sentence}
    (hne : ¬(s1 = s2 ∨ s1.cells = ∅ ∨ s2.cells = ∅))
    (hsub : s1.cells ⊆ s2.cells ∧ s1.cells.card ≠ s2.cells.card) :
    (derivedSentence s1 s2).cells.card < s2.cells.card := by
  push_neg at hne
  have h1 : s1.cells.Nonempty := Finset.nonempty_iff_ne_empty.mpr hne.2.1
  have hcard : (derivedSentence s1 s2).cells.card = s2.cells.card - s1.cells.card :=
    Finset.card_sdiff hsub.1
  have hpos : 0 < s1.cells.card := Finset.card_pos.mpr h1
  have hle : s1.cells.card ≤ s2.cells.card := Finset.card_le_card hsub.1
  omega

theorem innerAux_kb (s1 : Sentence) (fuel : ℕ) :
    ∀ (lst : List Sentence) (i2 : ℕ),
      (innerAux s1 fuel lst i2).length = lst.length ∧
        (innerAux s1 fuel lst i2 = lst ∨
          kbWeight (innerAux s1 fuel lst i2) < kbWeight lst) := by
  induction fuel with
  | zero => exact fun lst i2 => ⟨rfl, Or.inl rfl⟩
  | succ fuel ih =>
    intro lst i2
    show (innerAux s1 (fuel + 1) lst i2).length = _ ∧ _
    unfold innerAux
    split
    · next h =>
      split
      · exact ih lst (i2+1)
      · split
        · next hguard hsub =>
          set s2 := lst[i2] with hs2
          set lst' := (lst ++ [derivedSentence s1 s2]).erase s2 with hlst'
          have hmem : s2 ∈ lst ++ [derivedSentence s1 s2] :=
            List.mem_append_left _ (List.getElem_mem h)
          have hlen : lst'.length = lst.length := by
            rw [hlst', List.length_erase_of_mem hmem, List.length_append]
            simp
          have hw : kbWeight lst' < kbWeight lst := by
            have he := kbWeight_erase hmem
            rw [← hlst'] at he
            rw [kbWeight_append, kbWeight_cons, kbWeight_nil] at he
            have hlt := derivedSentence_card_lt hguard hsub
            omega
          refine ⟨(ih lst' (i2+1)).1.trans hlen, Or.inr ?_⟩
          rcases (ih lst' (i2+1)).2 with heq | hlt2
          · rw [heq]; exact hw
          · exact hlt2.trans hw
        · exact ih lst (i2+1)
    · exact ⟨rfl, Or.inl rfl⟩

theorem outerAux_kb (fuel : ℕ) :
    ∀ (lst : List Sentence) (i1 : ℕ),
      (outerAux fuel lst i1).length = lst.length ∧
        (outerAux fuel lst i1 = lst ∨ kbWeight (outerAux fuel lst i1) < kbWeight lst) := by
  induction fuel with
  | zero => exact fun lst i1 => ⟨rfl, Or.inl rfl⟩
  | succ fuel ih =>
    intro lst i1
    show (outerAux (fuel + 1) lst i1).length = _ ∧ _
    unfold outerAux
    split
    · next h =>
      set lst' := innerAux lst[i1] lst.length lst 0 with hlst'
      have hin := innerAux_kb lst[i1] lst.length lst 0
      refine ⟨(ih lst' (i1+1)).1.trans hin.1, ?_⟩
      rcases (ih lst' (i1+1)).2 with heq | hlt
      · rw [heq]; exact hin.2
      · rcases hin.2 with heq2 | hlt2
        · have hll : lst' = lst := hlst'.trans heq2
          rw [hll] at hlt ⊢
          exact Or.inr hlt
        · exact Or.inr (hlt.trans hlt2)
    · exact ⟨rfl, Or.inl rfl⟩

theorem subsetStep_kb (lst : List Sentence) :
    (subsetStep lst).length = lst.length ∧
      (subsetStep lst = lst ∨ kbWeight (subsetStep lst) < kbWeight lst) := by
  unfold subsetStep
  split
  · exact outerAux_kb lst.length lst 0
  · exact ⟨rfl, Or.inl rfl⟩

end MinesweeperAI

namespace MinesweeperAI

theorem removeEmptiesAux (todo : List Sentence) :
    ∀ done : List Sentence, (∀ s ∈ done, s.cells ≠ ∅) →
      todo.foldl (fun acc s => if s.cells = ∅ then acc.erase s else acc)
          (done ++ todo) =
        done ++ todo.filter (fun s => decide (s.cells ≠ ∅)) := by
  induction todo with
  | nil => intro done _; simp
  | cons x rest ih =>
    intro done hdone
    rw [List.foldl_cons]
    by_cases hx : x.cells = ∅
    · have hxd : x ∉ done := fun hmem => hdone x hmem hx
      have herase : (done ++ x :: rest).erase x = done ++ rest := by
        rw [List.erase_append_right _ hxd, List.erase_cons_head]
      rw [if_pos hx, herase, ih done hdone]
      have : (List.filter (fun s => decide (s.cells ≠ ∅)) (x :: rest)) =
          List.filter (fun s => decide (s.cells ≠ ∅)) rest := by
        rw [List.filter_cons_of_neg]
        simp [hx]
      rw [this]
    · have hstep : (done ++ x :: rest) = (done ++ [x]) ++ rest := by simp
      rw [if_neg hx, hstep, ih (done ++ [x]) ?hd]
      case hd =>
        intro s hs
        rcases List.mem_append.mp hs with hs | hs
        · exact hdone s hs
        · rw [List.mem_singleton.mp hs]; exact hx
      rw [List.filter_cons_of_pos (by simp [hx])]
      simp

theorem removeEmpties_eq_filter (lst : List Sentence) :
    removeEmpties lst = lst.filter (fun s => decide (s.cells ≠ ∅)) := by
  have := removeEmptiesAux lst [] (by intro s hs; cases hs)
  rw [List.nil_append] at this
  exact this

theorem kbWeight_filter_nonempty (lst : List Sentence) :
    kbWeight (lst.filter (fun s => decide (s.cells ≠ ∅))) = kbWeight lst := by
  induction lst with
  | nil => rfl
  | cons x rest ih =>
    by_cases hx : x.cells = ∅
    · rw [List.filter_cons_of_neg (by simp [hx]), kbWeight_cons, ih, hx,
        Finset.card_empty]
      omega
    · rw [List.filter_cons_of_pos (by simp [hx]), kbWeight_cons, kbWeight_cons, ih]

theorem removeEmpties_kb (lst : List Sentence) :
    kbWeight (removeEmpties lst) = kbWeight lst ∧
      (removeEmpties lst).length ≤ lst.length ∧
      (removeEmpties lst ≠ lst → (removeEmpties lst).length < lst.length) := by
  rw [removeEmpties_eq_filter]
  refine ⟨kbWeight_filter_nonempty lst, List.length_filter_le _ lst, ?_⟩
  intro hne
  have hle := List.length_filter_le (fun s => decide (s.cells ≠ ∅)) lst
  rcases Nat.eq_or_lt_of_le hle with heq | hlt
  · exact absurd ((List.filter_sublist lst).eq_of_length heq) hne
  · exact hlt

/-- Every non-exiting pass of the propagation loop strictly decreases the
measure `kbWeight + length` of the knowledge base. -/
theorem pass_measure_lt (st : MinesweeperAI)
    (hne : (passOf st).1.knowledge ≠ (passOf st).2) :
    kbMeasure (passOf st).1 < kbMeasure st := by
  have h1 : (passOf st).1.knowledge =
      removeEmpties (subsetStep (marksPass st).knowledge) := rfl
  have h2 : (passOf st).2 = (marksPass st).knowledge := rfl
  rw [h1, h2] at hne
  have hm := marksPass_kb st
  have hs := subsetStep_kb (marksPass st).knowledge
  have hr := removeEmpties_kb (subsetStep (marksPass st).knowledge)
  have hA : kbMeasure (passOf st).1 =
      kbWeight (removeEmpties (subsetStep (marksPass st).knowledge)) +
        (removeEmpties (subsetStep (marksPass st).knowledge)).length := by
    rw [show kbMeasure (passOf st).1 =
        kbWeight (passOf st).1.knowledge + (passOf st).1.knowledge.length from rfl, h1]
  have hB : kbMeasure st = kbWeight st.knowledge + st.knowledge.length := rfl
  rw [hA, hB]
  rcases hs.2 with heq | hlt
  · rw [heq] at hne hr ⊢
    have hw := hr.1
    have hlen := hr.2.2 hne
    have hw2 := hm.1
    have hl2 := hm.2
    omega
  · have hw := hr.1
    have hlen := hr.2.1
    have hl1 := hs.1
    have hw2 := hm.1
    have hl2 := hm.2
    omega

end MinesweeperAI

namespace MinesweeperAI

/-- With more fuel than the measure, the propagation loop reaches its exit
condition. -/
theorem loopFuel_isSome : ∀ (n : ℕ) (st : MinesweeperAI),
    kbMeasure st < n → (loopFuel n st).isSome = true := by
  intro n
  induction n with
  | zero => intro st h; cases h
  | succ n ih =>
    intro st _
    show (loopFuel (n + 1) st).isSome = true
    unfold loopFuel
    simp only
    split
    · rfl
    · next hne =>
      rename_i h
      exact ih (passOf st).1 (by
        have := pass_measure_lt st hne
        omega)

theorem loopFuel_runLoop (st : MinesweeperAI) :
    loopFuel (kbMeasure st + 1) st = some (runLoop st) := by
  have h := loopFuel_isSome (kbMeasure st + 1) st (Nat.lt_succ_self _)
  rcases Option.isSome_iff_exists.mp h with ⟨st', hst'⟩
  rw [hst']
  unfold runLoop
  rw [hst']
  rfl

end MinesweeperAI

/-! ### Claim C2: termination of the propagation loop -/

/-- Claim C2: for every engine state (in particular every reachable one),
the `while True` propagation loop of `add_knowledge` exits after finitely
many passes: some finite amount of fuel makes the exit condition fire. -/
theorem claim_C2_propagation_terminates (st : MinesweeperAI) :
    ∃ n : ℕ, (MinesweeperAI.loopFuel n st).isSome = true :=
  ⟨MinesweeperAI.kbMeasure st + 1,
    MinesweeperAI.loopFuel_isSome _ st (Nat.lt_succ_self _)⟩

/-! ### Structure of the marking sweep -/

theorem Sentence.known_safes_spec {s : Sentence} {S : Finset Cell}
    (h : s.known_safes = some S) :
    S = s.cells ∧ s.count = 0 ∧ s.cells ≠ ∅ := by
  unfold Sentence.known_safes at h
  split at h
  · next hc => cases h; exact ⟨rfl, hc.1, hc.2⟩
  · cases h

theorem Sentence.known_mines_spec {s : Sentence} {S : Finset Cell}
    (h : s.known_mines = some S) :
    S = s.cells ∧ s.count = (s.cells.card : ℤ) ∧ s.cells ≠ ∅ := by
  unfold Sentence.known_mines at h
  split at h
  · next hc => cases h; exact ⟨rfl, hc.2, hc.1⟩
  · cases h

namespace MinesweeperAI

theorem foldl_mark_safe_knowledge (cs : List Cell) :
    ∀ st : MinesweeperAI,
      (cs.foldl mark_safe st).knowledge =
        st.knowledge.map (fun t => cs.foldl (fun u c => Sentence.mark_safe c u) t) := by
  induction cs with
  | nil => intro st; simp
  | cons a cs ih =>
    intro st
    rw [List.foldl_cons, ih (st.mark_safe a), mark_safe_knowledge, List.map_map]
    rfl

theorem foldl_mark_mine_knowledge (cs : List Cell) :
    ∀ st : MinesweeperAI,
      (cs.foldl mark_mine st).knowledge =
        st.knowledge.map (fun t => cs.foldl (fun u c => Sentence.mark_mine c u) t) := by
  induction cs with
  | nil => intro st; simp
  | cons a cs ih =>
    intro st
    rw [List.foldl_cons, ih (st.mark_mine a), mark_mine_knowledge, List.map_map]
    rfl

theorem foldl_sentence_mark_safe_cells (cs : List Cell) :
    ∀ t : Sentence,
      (cs.foldl (fun u c => Sentence.mark_safe c u) t).cells =
        cs.foldl Finset.erase t.cells := by
  induction cs with
  | nil => intro t; rfl
  | cons a cs ih =>
    intro t
    rw [List.foldl_cons, List.foldl_cons, ih, Sentence.mark_safe_cells]

theorem foldl_sentence_mark_mine_cells (cs : List Cell) :
    ∀ t : Sentence,
      (cs.foldl (fun u c => Sentence.mark_mine c u) t).cells =
        cs.foldl Finset.erase t.cells := by
  induction cs with
  | nil => intro t; rfl
  | cons a cs ih =>
    intro t
    rw [List.foldl_cons, List.foldl_cons, ih, Sentence.mark_mine_cells]

theorem foldl_erase_subset (cs : List Cell) :
    ∀ X : Finset Cell, cs.foldl Finset.erase X ⊆ X := by
  induction cs with
  | nil => intro X; exact subset_rfl
  | cons a cs ih =>
    intro X
    exact (ih (X.erase a)).trans (Finset.erase_subset a X)

theorem foldl_erase_all (cs : List Cell) :
    ∀ X : Finset Cell, (∀ x ∈ X, x ∈ cs) → cs.foldl Finset.erase X = ∅ := by
  induction cs with
  | nil =>
    intro X hX
    exact Finset.eq_empty_iff_forall_not_mem.mpr fun x hx => by cases hX x hx
  | cons a cs ih =>
    intro X hX
    rw [List.foldl_cons]
    refine ih (X.erase a) fun x hx => ?_
    have hxa := Finset.ne_of_mem_erase hx
    rcases List.mem_cons.mp (hX x (Finset.mem_of_mem_erase hx)) with h | h
    · exact absurd h hxa
    · exact h

theorem markSafesStep_map (st : MinesweeperAI) (s : Sentence) :
    ∃ G : Sentence → Sentence,
      (markSafesStep st s).knowledge = st.knowledge.map G ∧
        ∀ t : Sentence, (G t).cells ⊆ t.cells := by
  unfold markSafesStep
  cases s.known_safes with
  | none => exact ⟨id, (List.map_id _).symm, fun t => subset_rfl⟩
  | some S =>
    refine ⟨fun t => (enumCells S).foldl (fun u c => Sentence.mark_safe c u) t,
      foldl_mark_safe_knowledge (enumCells S) st, fun t => ?_⟩
    rw [foldl_sentence_mark_safe_cells]
    exact foldl_erase_subset _ t.cells

theorem markMinesStep_map (st : MinesweeperAI) (s : Sentence) :
    ∃ G : Sentence → Sentence,
      (markMinesStep st s).knowledge = st.knowledge.map G ∧
        ∀ t : Sentence, (G t).cells ⊆ t.cells := by
  unfold markMinesStep
  cases s.known_mines with
  | none => exact ⟨id, (List.map_id _).symm, fun t => subset_rfl⟩
  | some S =>
    refine ⟨fun t => (enumCells S).foldl (fun u c => Sentence.mark_mine c u) t,
      foldl_mark_mine_knowledge (enumCells S) st, fun t => ?_⟩
    rw [foldl_sentence_mark_mine_cells]
    exact foldl_erase_subset _ t.cells

theorem marksPassAux_persist (fuel : ℕ) :
    ∀ (i : ℕ) (st : MinesweeperAI),
      (∃ t ∈ st.knowledge, t.cells = ∅) →
        ∃ t ∈ (marksPassAux fuel i st).knowledge, t.cells = ∅ := by
  induction fuel with
  | zero => exact fun i st h => h
  | succ fuel ih =>
    intro i st h
    show ∃ t ∈ (marksPassAux (fuel + 1) i st).knowledge, _
    unfold marksPassAux
    cases hkb : st.knowledge.get? i with
    | none => exact h
    | some s =>
      simp only
      refine ih (i+1) _ ?_
      obtain ⟨t, htm, htc⟩ := h
      obtain ⟨G1, hG1, hG1c⟩ := markSafesStep_map st s
      have ht1 : G1 t ∈ (markSafesStep st s).knowledge := by
        rw [hG1]; exact List.mem_map_of_mem G1 htm
      have ht1c : (G1 t).cells = ∅ :=
        Finset.subset_empty.mp (htc ▸ hG1c t)
      cases hkb1 : (markSafesStep st s).knowledge.get? i with
      | none => exact ⟨G1 t, ht1, ht1c⟩
      | some u =>
        obtain ⟨G2, hG2, hG2c⟩ := markMinesStep_map (markSafesStep st s) u
        refine ⟨G2 (G1 t), ?_, Finset.subset_empty.mp (ht1c ▸ hG2c (G1 t))⟩
        rw [hG2]
        exact List.mem_map_of_mem G2 ht1

end MinesweeperAI

namespace MinesweeperAI

theorem markSafesStep_fire_empty (st : MinesweeperAI) (s : Sentence)
    {S : Finset Cell} (hks : s.known_safes = some S) {i : ℕ}
    (hkb : st.knowledge.get? i = some s) :
    ∃ t : Sentence, (markSafesStep st s).knowledge.get? i = some t ∧ t.cells = ∅ := by
  have hspec := Sentence.known_safes_spec hks
  have hstep : (markSafesStep st s).knowledge =
      st.knowledge.map
        (fun t => (enumCells S).foldl (fun u c => Sentence.mark_safe c u) t) := by
    unfold markSafesStep
    rw [hks]
    exact foldl_mark_safe_knowledge (enumCells S) st
  refine ⟨(enumCells S).foldl (fun u c => Sentence.mark_safe c u) s, ?_, ?_⟩
  · rw [hstep, List.get?_map, hkb]
    rfl
  · rw [foldl_sentence_mark_safe_cells]
    exact foldl_erase_all _ _ fun x hx => enumCells_mem.mpr (hspec.1 ▸ hx)

theorem markMinesStep_fire_empty (st : MinesweeperAI) (s : Sentence)
    {S : Finset Cell} (hkm : s.known_mines = some S) {i : ℕ}
    (hkb : st.knowledge.get? i = some s) :
    ∃ t : Sentence, (markMinesStep st s).knowledge.get? i = some t ∧ t.cells = ∅ := by
  have hspec := Sentence.known_mines_spec hkm
  have hstep : (markMinesStep st s).knowledge =
      st.knowledge.map
        (fun t => (enumCells S).foldl (fun u c => Sentence.mark_mine c u) t) := by
    unfold markMinesStep
    rw [hkm]
    exact foldl_mark_mine_knowledge (enumCells S) st
  refine ⟨(enumCells S).foldl (fun u c => Sentence.mark_mine c u) s, ?_, ?_⟩
  · rw [hstep, List.get?_map, hkb]
    rfl
  · rw [foldl_sentence_mark_mine_cells]
    exact foldl_erase_all _ _ fun x hx => enumCells_mem.mpr (hspec.1 ▸ hx)

theorem marksPassAux_no_empty (fuel : ℕ) :
    ∀ (i : ℕ) (st : MinesweeperAI),
      (∀ t ∈ (marksPassAux fuel i st).knowledge, t.cells ≠ ∅) →
        marksPassAux fuel i st = st := by
  induction fuel with
  | zero => intro i st _; rfl
  | succ fuel ih =>
    intro i st hno
    rw [show marksPassAux (fuel + 1) i st =
      (match st.knowledge.get? i with
        | none => st
        | some s =>
          marksPassAux fuel (i+1)
            (match (markSafesStep st s).knowledge.get? i with
              | some t => markMinesStep (markSafesStep st s) t
              | none => markSafesStep st s)) from rfl] at hno ⊢
    cases hkb : st.knowledge.get? i with
    | none => rfl
    | some s =>
      rw [hkb] at hno
      simp only at hno ⊢
      cases hks : s.known_safes with
      | some S =>
        exfalso
        obtain ⟨t0, ht0, ht0c⟩ := markSafesStep_fire_empty st s hks hkb
        have hemp1 : ∃ t ∈ (markSafesStep st s).knowledge, t.cells = ∅ :=
          ⟨t0, List.get?_mem ht0, ht0c⟩
        cases hkb1 : (markSafesStep st s).knowledge.get? i with
        | none =>
          rw [hkb1] at hno
          simp only at hno
          obtain ⟨t, htm, htc⟩ := marksPassAux_persist fuel (i+1) _ hemp1
          exact hno t htm htc
        | some u =>
          rw [hkb1] at hno
          simp only at hno
          obtain ⟨G2, hG2, hG2c⟩ := markMinesStep_map (markSafesStep st s) u
          obtain ⟨t, htm, htc⟩ := hemp1
          have hemp2 : ∃ t ∈ (markMinesStep (markSafesStep st s) u).knowledge,
              t.cells = ∅ := by
            refine ⟨G2 t, ?_, Finset.subset_empty.mp (htc ▸ hG2c t)⟩
            rw [hG2]
            exact List.mem_map_of_mem G2 htm
          obtain ⟨t, htm2, htc2⟩ := marksPassAux_persist fuel (i+1) _ hemp2
          exact hno t htm2 htc2
      | none =>
        have hst1 : markSafesStep st s = st := by
          unfold markSafesStep
          rw [hks]
        rw [hst1, hkb] at hno ⊢
        simp only at hno ⊢
        cases hkm : s.known_mines with
        | some S =>
          exfalso
          obtain ⟨t0, ht0, ht0c⟩ := markMinesStep_fire_empty st s hkm hkb
          have hemp2 : ∃ t ∈ (markMinesStep st s).knowledge, t.cells = ∅ :=
            ⟨t0, List.get?_mem ht0, ht0c⟩
          obtain ⟨t, htm, htc⟩ := marksPassAux_persist fuel (i+1) _ hemp2
          exact hno t htm htc
        | none =>
          have hst2 : markMinesStep st s = st := by
            unfold markMinesStep
            rw [hkm]
          rw [hst2] at hno ⊢
          exact ih (i+1) st hno

theorem marksPass_no_empty (st : MinesweeperAI)
    (h : ∀ t ∈ (marksPass st).knowledge, t.cells ≠ ∅) :
    marksPass st = st :=
  marksPassAux_no_empty st.knowledge.length 0 st h

end MinesweeperAI

namespace MinesweeperAI

/-- If the exit comparison of the propagation loop holds — the knowledge list
after the full pass equals the aliased snapshot, i.e. the list as it stood
right after the marking step — then the whole pass was the identity. -/
theorem pass_exit_eq (st : MinesweeperAI)
    (hex : (passOf st).1.knowledge = (passOf st).2) : (passOf st).1 = st := by
  have h1 : (passOf st).1.knowledge =
      removeEmpties (subsetStep (marksPass st).knowledge) := rfl
  have h2 : (passOf st).2 = (marksPass st).knowledge := rfl
  rw [h1, h2] at hex
  have hsub : subsetStep (marksPass st).knowledge = (marksPass st).knowledge := by
    rcases (subsetStep_kb (marksPass st).knowledge).2 with heq | hlt
    · exact heq
    · exfalso
      have hw := (removeEmpties_kb (subsetStep (marksPass st).knowledge)).1
      rw [hex] at hw
      omega
  rw [hsub] at hex
  have hnoemp : ∀ t ∈ (marksPass st).knowledge, t.cells ≠ ∅ := by
    intro t htm
    have := List.filter_eq_self.mp ((removeEmpties_eq_filter _).symm.trans hex) t htm
    simpa using this
  have hmp : marksPass st = st := marksPass_no_empty st hnoemp
  show ({ marksPass st with
      knowledge := removeEmpties (subsetStep (marksPass st).knowledge) }
        : MinesweeperAI) = st
  rw [hsub, hex, hmp]

/-- Any state the fuelled loop exits with is itself a fixed point of the
pass. -/
theorem loopFuel_fix : ∀ (n : ℕ) (st st' : MinesweeperAI),
    loopFuel n st = some st' → (passOf st').1 = st' := by
  intro n
  induction n with
  | zero => intro st st' h; cases h
  | succ n ih =>
    intro st st' h
    rw [show loopFuel (n + 1) st =
      (if (passOf st).1.knowledge = (passOf st).2 then some (passOf st).1
       else loopFuel n (passOf st).1) from rfl] at h
    split at h
    · next hc =>
      cases h
      have hfix := pass_exit_eq st hc
      rw [hfix]
      exact hfix
    · exact ih (passOf st).1 st' h

theorem runLoop_fix (st : MinesweeperAI) :
    (passOf (runLoop st)).1 = runLoop st :=
  loopFuel_fix (kbMeasure st + 1) st (runLoop st) (loopFuel_runLoop st)

end MinesweeperAI

/-! ### Claim C7: fixed-point stability -/

/-- Claim C7: the propagation loop exits only when the full pass left the
knowledge collection unchanged under value-equality (the exit comparison
holding forces the pass to be the identity on the whole state), and on the
settled state one further pass changes neither the knowledge base nor the
`safes` and `mines` sets. -/
theorem claim_C7_fixed_point (st : MinesweeperAI) :
    ((MinesweeperAI.passOf st).1.knowledge = (MinesweeperAI.passOf st).2 →
        (MinesweeperAI.passOf st).1 = st) ∧
      (MinesweeperAI.passOf (MinesweeperAI.runLoop st)).1 =
        MinesweeperAI.runLoop st ∧
      (MinesweeperAI.passOf (MinesweeperAI.runLoop st)).1.knowledge =
        (MinesweeperAI.runLoop st).knowledge ∧
      (MinesweeperAI.passOf (MinesweeperAI.runLoop st)).1.safes =
        (MinesweeperAI.runLoop st).safes ∧
      (MinesweeperAI.passOf (MinesweeperAI.runLoop st)).1.mines =
        (MinesweeperAI.runLoop st).mines :=
  ⟨MinesweeperAI.pass_exit_eq st,
    MinesweeperAI.runLoop_fix st,
    congrArg MinesweeperAI.knowledge (MinesweeperAI.runLoop_fix st),
    congrArg MinesweeperAI.safes (MinesweeperAI.runLoop_fix st),
    congrArg MinesweeperAI.mines (MinesweeperAI.runLoop_fix st)⟩

/-- Witness for claim C7 at the fresh engine, whose single pass is the
identity at once. -/
theorem claim_C7_witness :
    ((MinesweeperAI.passOf (MinesweeperAI.init 8 8)).1.knowledge =
        (MinesweeperAI.passOf (MinesweeperAI.init 8 8)).2) ∧
      (MinesweeperAI.passOf (MinesweeperAI.init 8 8)).1 =
        MinesweeperAI.init 8 8 :=
  ⟨by decide, (claim_C7_fixed_point (MinesweeperAI.init 8 8)).1 (by decide)⟩

/-! ### Claim C6: the concrete subset-inference scenario -/

/-- Claim C6: starting from knowledge `A = {(0,0),(0,1)} = 1` and
`B = {(0,0),(0,1),(0,2)} = 2` with nothing marked, the propagation loop
derives the sentence `{(0,2)} = 1` (present after the first pass, in which
`B` has already been replaced), and on completion `B` has been removed from
the knowledge base and `(0,2)` has been added to `mines` (the derived
singleton itself being consumed by the mine-marking); only `A` remains. -/
theorem claim_C6_subset_inference :
    (⟨{((0 : ℤ), (2 : ℤ))}, 1⟩ : Sentence) ∈
        (MinesweeperAI.passOf
          ⟨8, 8, ∅, ∅, ∅,
            [⟨{((0 : ℤ), (0 : ℤ)), ((0 : ℤ), (1 : ℤ))}, 1⟩,
              ⟨{((0 : ℤ), (0 : ℤ)), ((0 : ℤ), (1 : ℤ)), ((0 : ℤ), (2 : ℤ))}, 2⟩],
            ∅⟩).1.knowledge ∧
      (⟨{((0 : ℤ), (0 : ℤ)), ((0 : ℤ), (1 : ℤ)), ((0 : ℤ), (2 : ℤ))}, 2⟩ : Sentence) ∉
        (MinesweeperAI.runLoop
          ⟨8, 8, ∅, ∅, ∅,
            [⟨{((0 : ℤ), (0 : ℤ)), ((0 : ℤ), (1 : ℤ))}, 1⟩,
              ⟨{((0 : ℤ), (0 : ℤ)), ((0 : ℤ), (1 : ℤ)), ((0 : ℤ), (2 : ℤ))}, 2⟩],
            ∅⟩).knowledge ∧
      ((0 : ℤ), (2 : ℤ)) ∈
        (MinesweeperAI.runLoop
          ⟨8, 8, ∅, ∅, ∅,
            [⟨{((0 : ℤ), (0 : ℤ)), ((0 : ℤ), (1 : ℤ))}, 1⟩,
              ⟨{((0 : ℤ), (0 : ℤ)), ((0 : ℤ), (1 : ℤ)), ((0 : ℤ), (2 : ℤ))}, 2⟩],
            ∅⟩).mines ∧
      (MinesweeperAI.runLoop
          ⟨8, 8, ∅, ∅, ∅,
            [⟨{((0 : ℤ), (0 : ℤ)), ((0 : ℤ), (1 : ℤ))}, 1⟩,
              ⟨{((0 : ℤ), (0 : ℤ)), ((0 : ℤ), (1 : ℤ)), ((0 : ℤ), (2 : ℤ))}, 2⟩],
            ∅⟩).knowledge =
        [⟨{((0 : ℤ), (0 : ℤ)), ((0 : ℤ), (1 : ℤ))}, 1⟩] := by
  refine ⟨by decide, by decide, by decide, by decide⟩

/-! ### The observation-ingestion step of add_knowledge -/

namespace MinesweeperAI

theorem neighborCandidates_explicit (cell : Cell) :
    neighborCandidates cell =
      [(cell.1 - 1, cell.2 - 1), (cell.1 - 1, cell.2), (cell.1 - 1, cell.2 + 1),
       (cell.1, cell.2 - 1), (cell.1, cell.2), (cell.1, cell.2 + 1),
       (cell.1 + 1, cell.2 - 1), (cell.1 + 1, cell.2), (cell.1 + 1, cell.2 + 1)] := rfl

theorem neighborCandidates_nodup (cell : Cell) : (neighborCandidates cell).Nodup := by
  rw [neighborCandidates_explicit]
  simp only [List.nodup_cons, List.mem_cons, List.mem_singleton, List.not_mem_nil,
    List.nodup_nil, Prod.mk.injEq, not_or, and_true]
  norm_num
  omega

theorem mem_neighborsFinset {h w : ℤ} {cell x : Cell} :
    x ∈ neighborsFinset h w cell ↔
      x ∈ neighborCandidates cell ∧ x ≠ cell ∧ inBounds h w x := by
  unfold neighborsFinset
  rw [List.mem_toFinset, List.mem_filter]
  simp

theorem ingest_foldl_spec (st : MinesweeperAI) (cell : Cell) :
    ∀ (l : List Cell) (acc : Finset Cell) (c0 : ℤ),
      l.foldl (ingestStep st cell) (acc, c0) =
        (acc ∪ (l.filter (fun p => decide (p ≠ cell ∧
            inBounds st.height st.width p ∧ p ∉ st.moves_made ∧ p ∉ st.safes ∧
            p ∉ st.mines))).toFinset,
          c0 - ((l.filter (fun p => decide (p ≠ cell ∧
            inBounds st.height st.width p ∧ p ∉ st.moves_made ∧ p ∉ st.safes ∧
            p ∈ st.mines))).length : ℤ)) := by
  intro l
  induction l with
  | nil => intro acc c0; simp
  | cons p l ih =>
    intro acc c0
    rw [List.foldl_cons]
    by_cases h1 : p = cell
    · rw [show ingestStep st cell (acc, c0) p = (acc, c0) by
        unfold ingestStep; rw [if_pos h1], ih,
        List.filter_cons_of_neg (by simp [h1]),
        List.filter_cons_of_neg (by simp [h1])]
    · by_cases h2 : inBounds st.height st.width p
      · by_cases h3 : p ∉ st.moves_made ∧ p ∉ st.safes
        · by_cases h4 : p ∈ st.mines
          · rw [show ingestStep st cell (acc, c0) p = (acc, c0 - 1) by
              unfold ingestStep
              rw [if_neg h1, if_pos h2, if_pos h3, if_pos h4], ih,
              List.filter_cons_of_neg (by simp [h1, h2, h3.1, h3.2, h4]),
              List.filter_cons_of_pos (by simp [h1, h2, h3.1, h3.2, h4])]
            refine Prod.ext rfl ?_
            simp only [List.length_cons]
            push_cast
            ring
          · rw [show ingestStep st cell (acc, c0) p = (insert p acc, c0) by
              unfold ingestStep
              rw [if_neg h1, if_pos h2, if_pos h3, if_neg h4], ih,
              List.filter_cons_of_pos (by simp [h1, h2, h3.1, h3.2, h4]),
              List.filter_cons_of_neg (by simp [h1, h2, h3.1, h3.2, h4])]
            refine Prod.ext ?_ rfl
            simp only [List.toFinset_cons, Finset.insert_union, Finset.union_insert]
        · rw [show ingestStep st cell (acc, c0) p = (acc, c0) by
            unfold ingestStep
            rw [if_neg h1, if_pos h2, if_neg h3], ih]
          rw [not_and_or] at h3
          rcases h3 with h3 | h3 <;> rw [not_not] at h3
          · rw [List.filter_cons_of_neg (by simp [h3]),
              List.filter_cons_of_neg (by simp [h3])]
          · rw [List.filter_cons_of_neg (by simp [h3]),
              List.filter_cons_of_neg (by simp [h3])]
      · rw [show ingestStep st cell (acc, c0) p = (acc, c0) by
          unfold ingestStep
          rw [if_neg h1, if_neg h2], ih,
          List.filter_cons_of_neg (by simp [h2]),
          List.filter_cons_of_neg (by simp [h2])]

end MinesweeperAI

namespace MinesweeperAI

theorem add_knowledge_pre_spec (st : MinesweeperAI) (cell : Cell) (count : ℤ) :
    (add_knowledge_pre st cell count).height = st.height ∧
      (add_knowledge_pre st cell count).width = st.width ∧
      (add_knowledge_pre st cell count).moves_made = insert cell st.moves_made ∧
      (add_knowledge_pre st cell count).safes = insert cell st.safes ∧
      (add_knowledge_pre st cell count).mines = st.mines ∧
      (add_knowledge_pre st cell count).random = st.random ∧
      (add_knowledge_pre st cell count).knowledge =
        st.knowledge.map (Sentence.mark_safe cell) ++
          [⟨neighborsFinset st.height st.width cell \
              (insert cell st.moves_made ∪ insert cell st.safes ∪ st.mines),
            count - ((neighborsFinset st.height st.width cell ∩
              (st.mines \ (insert cell st.moves_made ∪ insert cell st.safes))).card : ℤ)⟩] := by
  refine ⟨rfl, rfl, rfl, rfl, rfl, rfl, ?_⟩
  have hfold := ingest_foldl_spec
    (mark_safe { st with moves_made := insert cell st.moves_made } cell) cell
    (neighborCandidates cell) ∅ count
  show (mark_safe { st with moves_made := insert cell st.moves_made } cell).knowledge ++
      [⟨((neighborCandidates cell).foldl
          (ingestStep (mark_safe { st with moves_made := insert cell st.moves_made } cell)
            cell) (∅, count)).1,
        ((neighborCandidates cell).foldl
          (ingestStep (mark_safe { st with moves_made := insert cell st.moves_made } cell)
            cell) (∅, count)).2⟩] = _
  rw [hfold]
  have hS : (∅ ∪ (List.filter (fun p => decide (p ≠ cell ∧
      inBounds (mark_safe { st with moves_made := insert cell st.moves_made }
          cell).height
        (mark_safe { st with moves_made := insert cell st.moves_made } cell).width p ∧
      p ∉ (mark_safe { st with moves_made := insert cell st.moves_made }
          cell).moves_made ∧
      p ∉ (mark_safe { st with moves_made := insert cell st.moves_made } cell).safes ∧
      p ∉ (mark_safe { st with moves_made := insert cell st.moves_made } cell).mines))
      (neighborCandidates cell)).toFinset) =
      neighborsFinset st.height st.width cell \
        (insert cell st.moves_made ∪ insert cell st.safes ∪ st.mines) := by
    rw [Finset.empty_union]
    ext x
    rw [List.mem_toFinset, List.mem_filter, Finset.mem_sdiff, mem_neighborsFinset,
      decide_eq_true_eq]
    simp only [Finset.mem_union, mark_safe_moves, mark_safe_safes, mark_safe_mines]
    tauto
  have hQ : ((List.filter (fun p => decide (p ≠ cell ∧
      inBounds (mark_safe { st with moves_made := insert cell st.moves_made }
          cell).height
        (mark_safe { st with moves_made := insert cell st.moves_made } cell).width p ∧
      p ∉ (mark_safe { st with moves_made := insert cell st.moves_made }
          cell).moves_made ∧
      p ∉ (mark_safe { st with moves_made := insert cell st.moves_made } cell).safes ∧
      p ∈ (mark_safe { st with moves_made := insert cell st.moves_made } cell).mines))
      (neighborCandidates cell)).length) =
      (neighborsFinset st.height st.width cell ∩
        (st.mines \ (insert cell st.moves_made ∪ insert cell st.safes))).card := by
    rw [← List.toFinset_card_of_nodup ((neighborCandidates_nodup cell).filter _)]
    congr 1
    ext x
    rw [List.mem_toFinset, List.mem_filter, Finset.mem_inter, mem_neighborsFinset,
      decide_eq_true_eq, Finset.mem_sdiff, Finset.mem_union]
    simp only [mark_safe_moves, mark_safe_safes, mark_safe_mines]
    tauto
  rw [hS, hQ]
  rfl

end MinesweeperAI

/-! ### Claim C5: observation ingestion -/

/-- Claim C5 counterexample: in the reachable state where `(0,1)` is in both
`mines` and `safes` (public `mark_mine` then `mark_safe`), ingesting the
observation `((0,0), 1)` appends the sentence `{(1,0),(1,1)} = 1`: the
mine-neighbour `(0,1)` is skipped by the `moves_made/safes` test before the
mines test, so the count is NOT decremented, while the claim's formula
`count - |in-bounds neighbours ∩ mines|` predicts count `1 - 1 = 0`. -/
theorem claim_C5_counterexample :
    ((MinesweeperAI.add_knowledge_pre
        (MinesweeperAI.mark_safe
          (MinesweeperAI.mark_mine (MinesweeperAI.init 8 8) ((0 : ℤ), (1 : ℤ)))
          ((0 : ℤ), (1 : ℤ)))
        ((0 : ℤ), (0 : ℤ)) 1).knowledge.getLastD ⟨∅, 0⟩).count = 1 ∧
      ((MinesweeperAI.add_knowledge_pre
        (MinesweeperAI.mark_safe
          (MinesweeperAI.mark_mine (MinesweeperAI.init 8 8) ((0 : ℤ), (1 : ℤ)))
          ((0 : ℤ), (1 : ℤ)))
        ((0 : ℤ), (0 : ℤ)) 1).knowledge.getLastD ⟨∅, 0⟩).cells.card = 2 ∧
      ((1 : ℤ), (0 : ℤ)) ∈ ((MinesweeperAI.add_knowledge_pre
        (MinesweeperAI.mark_safe
          (MinesweeperAI.mark_mine (MinesweeperAI.init 8 8) ((0 : ℤ), (1 : ℤ)))
          ((0 : ℤ), (1 : ℤ)))
        ((0 : ℤ), (0 : ℤ)) 1).knowledge.getLastD ⟨∅, 0⟩).cells ∧
      ((1 : ℤ), (1 : ℤ)) ∈ ((MinesweeperAI.add_knowledge_pre
        (MinesweeperAI.mark_safe
          (MinesweeperAI.mark_mine (MinesweeperAI.init 8 8) ((0 : ℤ), (1 : ℤ)))
          ((0 : ℤ), (1 : ℤ)))
        ((0 : ℤ), (0 : ℤ)) 1).knowledge.getLastD ⟨∅, 0⟩).cells ∧
      ((MinesweeperAI.add_knowledge_pre
        (MinesweeperAI.mark_safe
          (MinesweeperAI.mark_mine (MinesweeperAI.init 8 8) ((0 : ℤ), (1 : ℤ)))
          ((0 : ℤ), (1 : ℤ)))
        ((0 : ℤ), (0 : ℤ)) 1).knowledge.getLastD ⟨∅, 0⟩).count ≠
        1 - ((MinesweeperAI.neighborsFinset 8 8 ((0 : ℤ), (0 : ℤ)) ∩
          (MinesweeperAI.mark_safe
            (MinesweeperAI.mark_mine (MinesweeperAI.init 8 8) ((0 : ℤ), (1 : ℤ)))
            ((0 : ℤ), (1 : ℤ))).mines).card : ℤ) :=
  ⟨by decide, by decide, by decide, by decide, by decide⟩

/-- Claim C5 amended: before propagation starts, `add_knowledge(cell, count)`
has added `cell` to `moves_made`, marked it safe, and appended one new
sentence whose cell set is the in-bounds neighbours minus those in
`moves_made`, `safes` or `mines`, and whose count is the given count minus
the number of in-bounds neighbours that are in `mines` AND NOT in
`moves_made` or `safes` (the skip test for `moves_made`/`safes` runs before
the mines test, so a mine-neighbour also recorded as played or safe does not
decrement the count). -/
theorem claim_C5_ingestion_amended (st : MinesweeperAI) (cell : Cell) (count : ℤ) :
    MinesweeperAI.add_knowledge st cell count =
        MinesweeperAI.runLoop (MinesweeperAI.add_knowledge_pre st cell count) ∧
      (MinesweeperAI.add_knowledge_pre st cell count).moves_made =
        insert cell st.moves_made ∧
      cell ∈ (MinesweeperAI.add_knowledge_pre st cell count).safes ∧
      (MinesweeperAI.add_knowledge_pre st cell count).safes =
        insert cell st.safes ∧
      (MinesweeperAI.add_knowledge_pre st cell count).knowledge =
        st.knowledge.map (Sentence.mark_safe cell) ++
          [⟨MinesweeperAI.neighborsFinset st.height st.width cell \
              (insert cell st.moves_made ∪ insert cell st.safes ∪ st.mines),
            count - ((MinesweeperAI.neighborsFinset st.height st.width cell ∩
              (st.mines \ (insert cell st.moves_made ∪ insert cell st.safes))).card : ℤ)⟩] := by
  have h := MinesweeperAI.add_knowledge_pre_spec st cell count
  refine ⟨rfl, h.2.2.1, ?_, h.2.2.2.1, h.2.2.2.2.2.2⟩
  rw [h.2.2.2.1]
  exact Finset.mem_insert_self cell st.safes

/-! ### Soundness: truth of sentences is preserved by every engine step -/

theorem TrueS_mark_safe {M : Finset Cell} {c : Cell} (hc : c ∉ M) {s : Sentence}
    (h : TrueS M s) : TrueS M (Sentence.mark_safe c s) := by
  unfold TrueS at *
  rw [Sentence.mark_safe_cells, Sentence.mark_safe_count]
  have hint : s.cells.erase c ∩ M = s.cells ∩ M := by
    ext x
    simp only [Finset.mem_inter, Finset.mem_erase]
    constructor
    · rintro ⟨⟨-, h1⟩, h2⟩
      exact ⟨h1, h2⟩
    · rintro ⟨h1, h2⟩
      exact ⟨⟨fun hxc => hc (hxc ▸ h2), h1⟩, h2⟩
  rw [hint]
  exact h

theorem TrueS_mark_mine {M : Finset Cell} {c : Cell} (hc : c ∈ M) {s : Sentence}
    (h : TrueS M s) : TrueS M (Sentence.mark_mine c s) := by
  unfold Sentence.mark_mine
  split
  · next hmem =>
    unfold TrueS at *
    simp only
    have hint : s.cells.erase c ∩ M = (s.cells ∩ M).erase c := by
      ext x
      simp only [Finset.mem_inter, Finset.mem_erase]
      tauto
    rw [hint, Finset.card_erase_of_mem (Finset.mem_inter.mpr ⟨hmem, hc⟩)]
    have hpos : 0 < (s.cells ∩ M).card :=
      Finset.card_pos.mpr ⟨c, Finset.mem_inter.mpr ⟨hmem, hc⟩⟩
    omega
  · exact h

theorem TrueS_known_safes {M : Finset Cell} {s : Sentence} {S : Finset Cell}
    (h : TrueS M s) (hks : s.known_safes = some S) : ∀ c ∈ S, c ∉ M := by
  obtain ⟨hS, hcount, -⟩ := Sentence.known_safes_spec hks
  intro c hcS hcM
  have hcard : (s.cells ∩ M).card = 0 := by
    unfold TrueS at h
    omega
  have : c ∈ s.cells ∩ M := Finset.mem_inter.mpr ⟨hS ▸ hcS, hcM⟩
  rw [Finset.card_eq_zero.mp hcard] at this
  cases this

theorem TrueS_known_mines {M : Finset Cell} {s : Sentence} {S : Finset Cell}
    (h : TrueS M s) (hkm : s.known_mines = some S) : ∀ c ∈ S, c ∈ M := by
  obtain ⟨hS, hcount, -⟩ := Sentence.known_mines_spec hkm
  intro c hcS
  have hcard : (s.cells ∩ M).card = s.cells.card := by
    unfold TrueS at h
    omega
  have heq : s.cells ∩ M = s.cells :=
    Finset.eq_of_subset_of_card_le Finset.inter_subset_left (le_of_eq hcard.symm)
  have : c ∈ s.cells ∩ M := heq.symm ▸ (hS ▸ hcS)
  exact (Finset.mem_inter.mp this).2

theorem TrueS_derived {M : Finset Cell} {s1 s2 : Sentence}
    (h1 : TrueS M s1) (h2 : TrueS M s2) (hsub : s1.cells ⊆ s2.cells) :
    TrueS M (MinesweeperAI.derivedSentence s1 s2) := by
  unfold TrueS MinesweeperAI.derivedSentence at *
  simp only
  have hset : (s2.cells \ s1.cells) ∩ M = (s2.cells ∩ M) \ (s1.cells ∩ M) := by
    ext x
    simp only [Finset.mem_inter, Finset.mem_sdiff]
    tauto
  have hss : s1.cells ∩ M ⊆ s2.cells ∩ M :=
    Finset.inter_subset_inter hsub subset_rfl
  rw [hset, Finset.card_sdiff hss]
  have := Finset.card_le_card hss
  omega

namespace MinesweeperAI

theorem soundInv_mark_safe {M : Finset Cell} {st : MinesweeperAI} {c : Cell}
    (hc : c ∉ M) (h : SoundInv M st) : SoundInv M (st.mark_safe c) := by
  obtain ⟨h1, h2, h3, h4⟩ := h
  refine ⟨?_, ?_, ?_, ?_⟩
  · simpa using h1
  · intro x hx
    rw [mark_safe_safes, Finset.mem_insert] at hx
    rcases hx with rfl | hx
    · exact hc
    · exact h2 x hx
  · simpa using h3
  · intro s hs
    rw [mark_safe_knowledge] at hs
    obtain ⟨t, htm, rfl⟩ := List.mem_map.mp hs
    exact TrueS_mark_safe hc (h4 t htm)

theorem soundInv_mark_mine {M : Finset Cell} {st : MinesweeperAI} {c : Cell}
    (hc : c ∈ M) (h : SoundInv M st) : SoundInv M (st.mark_mine c) := by
  obtain ⟨h1, h2, h3, h4⟩ := h
  refine ⟨?_, ?_, ?_, ?_⟩
  · intro x hx
    rw [mark_mine_mines, Finset.mem_insert] at hx
    rcases hx with rfl | hx
    · exact hc
    · exact h1 x hx
  · simpa using h2
  · simpa using h3
  · intro s hs
    rw [mark_mine_knowledge] at hs
    obtain ⟨t, htm, rfl⟩ := List.mem_map.mp hs
    exact TrueS_mark_mine hc (h4 t htm)

theorem soundInv_foldl_mark_safe {M : Finset Cell} (l : List Cell) :
    ∀ st : MinesweeperAI, (∀ c ∈ l, c ∉ M) → SoundInv M st →
      SoundInv M (l.foldl mark_safe st) := by
  induction l with
  | nil => exact fun st _ h => h
  | cons a l ih =>
    intro st hl h
    rw [List.foldl_cons]
    exact ih (st.mark_safe a) (fun c hc => hl c (List.mem_cons_of_mem a hc))
      (soundInv_mark_safe (hl a (List.mem_cons_self a l)) h)

theorem soundInv_foldl_mark_mine {M : Finset Cell} (l : List Cell) :
    ∀ st : MinesweeperAI, (∀ c ∈ l, c ∈ M) → SoundInv M st →
      SoundInv M (l.foldl mark_mine st) := by
  induction l with
  | nil => exact fun st _ h => h
  | cons a l ih =>
    intro st hl h
    rw [List.foldl_cons]
    exact ih (st.mark_mine a) (fun c hc => hl c (List.mem_cons_of_mem a hc))
      (soundInv_mark_mine (hl a (List.mem_cons_self a l)) h)

end MinesweeperAI

namespace MinesweeperAI

theorem soundInv_markSafesStep {M : Finset Cell} {st : MinesweeperAI} {s : Sentence}
    (h : SoundInv M st) (hs : TrueS M s) : SoundInv M (markSafesStep st s) := by
  unfold markSafesStep
  cases hks : s.known_safes with
  | none => exact h
  | some S =>
    refine soundInv_foldl_mark_safe (enumCells S) st ?_ h
    intro c hc
    exact TrueS_known_safes hs hks c (enumCells_mem.mp hc)

theorem soundInv_markMinesStep {M : Finset Cell} {st : MinesweeperAI} {s : Sentence}
    (h : SoundInv M st) (hs : TrueS M s) : SoundInv M (markMinesStep st s) := by
  unfold markMinesStep
  cases hkm : s.known_mines with
  | none => exact h
  | some S =>
    refine soundInv_foldl_mark_mine (enumCells S) st ?_ h
    intro c hc
    exact TrueS_known_mines hs hkm c (enumCells_mem.mp hc)

theorem soundInv_marksPassAux {M : Finset Cell} (fuel : ℕ) :
    ∀ (i : ℕ) (st : MinesweeperAI), SoundInv M st →
      SoundInv M (marksPassAux fuel i st) := by
  induction fuel with
  | zero => exact fun i st h => h
  | succ fuel ih =>
    intro i st h
    rw [show marksPassAux (fuel + 1) i st =
      (match st.knowledge.get? i with
        | none => st
        | some s =>
          marksPassAux fuel (i+1)
            (match (markSafesStep st s).knowledge.get? i with
              | some t => markMinesStep (markSafesStep st s) t
              | none => markSafesStep st s)) from rfl]
    cases hkb : st.knowledge.get? i with
    | none => exact h
    | some s =>
      simp only
      have hs : TrueS M s := h.2.2.2 s (List.get?_mem hkb)
      have h1 : SoundInv M (markSafesStep st s) := soundInv_markSafesStep h hs
      cases hkb1 : (markSafesStep st s).knowledge.get? i with
      | none => exact ih (i+1) _ h1
      | some t =>
        have ht : TrueS M t := h1.2.2.2 t (List.get?_mem hkb1)
        exact ih (i+1) _ (soundInv_markMinesStep h1 ht)

theorem soundInv_marksPass {M : Finset Cell} {st : MinesweeperAI}
    (h : SoundInv M st) : SoundInv M (marksPass st) :=
  soundInv_marksPassAux st.knowledge.length 0 st h

theorem innerAux_true {M : Finset Cell} (s1 : Sentence) (hs1 : TrueS M s1)
    (fuel : ℕ) :
    ∀ (lst : List Sentence) (i2 : ℕ), (∀ s ∈ lst, TrueS M s) →
      ∀ s ∈ innerAux s1 fuel lst i2, TrueS M s := by
  induction fuel with
  | zero => exact fun lst i2 h => h
  | succ fuel ih =>
    intro lst i2 hl
    show ∀ s ∈ innerAux s1 (fuel + 1) lst i2, TrueS M s
    unfold innerAux
    split
    · next hlt =>
      split
      · exact ih lst (i2+1) hl
      · split
        · next hguard hsub =>
          refine ih _ (i2+1) ?_
          intro s hs
          rcases List.mem_append.mp (List.mem_of_mem_erase hs) with hs | hs
          · exact hl s hs
          · rw [List.mem_singleton.mp hs]
            exact TrueS_derived hs1 (hl lst[i2] (List.getElem_mem hlt)) hsub.1
        · exact ih lst (i2+1) hl
    · exact hl

theorem outerAux_true {M : Finset Cell} (fuel : ℕ) :
    ∀ (lst : List Sentence) (i1 : ℕ), (∀ s ∈ lst, TrueS M s) →
      ∀ s ∈ outerAux fuel lst i1, TrueS M s := by
  induction fuel with
  | zero => exact fun lst i1 h => h
  | succ fuel ih =>
    intro lst i1 hl
    show ∀ s ∈ outerAux (fuel + 1) lst i1, TrueS M s
    unfold outerAux
    split
    · next hlt =>
      exact ih _ (i1+1)
        (innerAux_true lst[i1] (hl lst[i1] (List.getElem_mem hlt)) lst.length lst 0 hl)
    · exact hl

theorem subsetStep_true {M : Finset Cell} {lst : List Sentence}
    (hl : ∀ s ∈ lst, TrueS M s) : ∀ s ∈ subsetStep lst, TrueS M s := by
  unfold subsetStep
  split
  · exact outerAux_true lst.length lst 0 hl
  · exact hl

theorem removeEmpties_true {M : Finset Cell} {lst : List Sentence}
    (hl : ∀ s ∈ lst, TrueS M s) : ∀ s ∈ removeEmpties lst, TrueS M s := by
  rw [removeEmpties_eq_filter]
  intro s hs
  exact hl s (List.mem_of_mem_filter hs)

theorem soundInv_passOf {M : Finset Cell} {st : MinesweeperAI}
    (h : SoundInv M st) : SoundInv M (passOf st).1 := by
  have h1 := soundInv_marksPass h
  obtain ⟨ha, hb, hc, hd⟩ := h1
  exact ⟨ha, hb, hc,
    removeEmpties_true (subsetStep_true hd)⟩

theorem soundInv_loopFuel {M : Finset Cell} : ∀ (n : ℕ) (st st' : MinesweeperAI),
    loopFuel n st = some st' → SoundInv M st → SoundInv M st' := by
  intro n
  induction n with
  | zero => intro st st' hf _; cases hf
  | succ n ih =>
    intro st st' hf h
    rw [show loopFuel (n + 1) st =
      (if (passOf st).1.knowledge = (passOf st).2 then some (passOf st).1
       else loopFuel n (passOf st).1) from rfl] at hf
    split at hf
    · cases hf
      exact soundInv_passOf h
    · exact ih (passOf st).1 st' hf (soundInv_passOf h)

theorem soundInv_runLoop {M : Finset Cell} {st : MinesweeperAI}
    (h : SoundInv M st) : SoundInv M (runLoop st) :=
  soundInv_loopFuel (kbMeasure st + 1) st (runLoop st) (loopFuel_runLoop st) h

end MinesweeperAI

/-- Truth of the freshly ingested sentence: with every recorded move and safe
cell known mine-free and every recorded mine a real mine, the unresolved
neighbours contain exactly the true count minus the accounted-for mines. -/
theorem TrueS_new_sentence {M N mv sf mi : Finset Cell}
    (hmv : ∀ c ∈ mv, c ∉ M) (hsf : ∀ c ∈ sf, c ∉ M) (hmi : ∀ c ∈ mi, c ∈ M) :
    TrueS M ⟨N \ (mv ∪ sf ∪ mi),
      ((N ∩ M).card : ℤ) - ((N ∩ (mi \ (mv ∪ sf))).card : ℤ)⟩ := by
  unfold TrueS
  simp only
  have h1 : mi \ (mv ∪ sf) = mi := by
    ext x
    simp only [Finset.mem_sdiff, Finset.mem_union, not_or]
    constructor
    · exact fun hx => hx.1
    · intro hx
      exact ⟨hx, fun hc => hmv x hc (hmi x hx), fun hc => hsf x hc (hmi x hx)⟩
  have h2 : (N \ (mv ∪ sf ∪ mi)) ∩ M = (N ∩ M) \ (N ∩ mi) := by
    ext x
    have hx1 := hmv x
    have hx2 := hsf x
    have hx3 := hmi x
    simp only [Finset.mem_inter, Finset.mem_sdiff, Finset.mem_union, not_or]
    tauto
  have h3 : N ∩ mi ⊆ N ∩ M :=
    Finset.inter_subset_inter subset_rfl fun x hx => hmi x hx
  rw [h1, h2, Finset.card_sdiff h3]
  have := Finset.card_le_card h3
  omega

namespace MinesweeperAI

theorem soundInv_add_knowledge_pre {M : Finset Cell} {st : MinesweeperAI}
    {cell : Cell} (hc : cell ∉ M) (h : SoundInv M st) :
    SoundInv M (add_knowledge_pre st cell
      (trueNeighborCount st.height st.width M cell)) := by
  obtain ⟨h1, h2, h3, h4⟩ := h
  obtain ⟨-, -, hmv, hsf, hmi, -, hkb⟩ :=
    add_knowledge_pre_spec st cell (trueNeighborCount st.height st.width M cell)
  refine ⟨?_, ?_, ?_, ?_⟩
  · intro x hx
    rw [hmi] at hx
    exact h1 x hx
  · intro x hx
    rw [hsf, Finset.mem_insert] at hx
    rcases hx with rfl | hx
    · exact hc
    · exact h2 x hx
  · intro x hx
    rw [hmv, Finset.mem_insert] at hx
    rcases hx with rfl | hx
    · exact hc
    · exact h3 x hx
  · intro s hs
    rw [hkb] at hs
    rcases List.mem_append.mp hs with hs | hs
    · obtain ⟨t, htm, rfl⟩ := List.mem_map.mp hs
      exact TrueS_mark_safe hc (h4 t htm)
    · rw [List.mem_singleton.mp hs]
      have hmv' : ∀ c ∈ insert cell st.moves_made, c ∉ M := by
        intro x hx
        rcases Finset.mem_insert.mp hx with rfl | hx
        · exact hc
        · exact h3 x hx
      have hsf' : ∀ c ∈ insert cell st.safes, c ∉ M := by
        intro x hx
        rcases Finset.mem_insert.mp hx with rfl | hx
        · exact hc
        · exact h2 x hx
      exact TrueS_new_sentence hmv' hsf' h1

theorem soundInv_add_knowledge {M : Finset Cell} {st : MinesweeperAI}
    {cell : Cell} (hc : cell ∉ M) (h : SoundInv M st) :
    SoundInv M (add_knowledge st cell
      (trueNeighborCount st.height st.width M cell)) :=
  soundInv_runLoop (soundInv_add_knowledge_pre hc h)

end MinesweeperAI

namespace MinesweeperAI

theorem foldl_mark_safe_dims (l : List Cell) :
    ∀ st : MinesweeperAI, (l.foldl mark_safe st).height = st.height ∧
      (l.foldl mark_safe st).width = st.width := by
  induction l with
  | nil => exact fun st => ⟨rfl, rfl⟩
  | cons a l ih =>
    intro st
    rw [List.foldl_cons]
    exact ⟨(ih (st.mark_safe a)).1, (ih (st.mark_safe a)).2⟩

theorem foldl_mark_mine_dims (l : List Cell) :
    ∀ st : MinesweeperAI, (l.foldl mark_mine st).height = st.height ∧
      (l.foldl mark_mine st).width = st.width := by
  induction l with
  | nil => exact fun st => ⟨rfl, rfl⟩
  | cons a l ih =>
    intro st
    rw [List.foldl_cons]
    exact ⟨(ih (st.mark_mine a)).1, (ih (st.mark_mine a)).2⟩

theorem markSafesStep_dims (st : MinesweeperAI) (s : Sentence) :
    (markSafesStep st s).height = st.height ∧
      (markSafesStep st s).width = st.width := by
  unfold markSafesStep
  cases s.known_safes with
  | none => exact ⟨rfl, rfl⟩
  | some S => exact foldl_mark_safe_dims (enumCells S) st

theorem markMinesStep_dims (st : MinesweeperAI) (s : Sentence) :
    (markMinesStep st s).height = st.height ∧
      (markMinesStep st s).width = st.width := by
  unfold markMinesStep
  cases s.known_mines with
  | none => exact ⟨rfl, rfl⟩
  | some S => exact foldl_mark_mine_dims (enumCells S) st

theorem marksPassAux_dims (fuel : ℕ) :
    ∀ (i : ℕ) (st : MinesweeperAI),
      (marksPassAux fuel i st).height = st.height ∧
        (marksPassAux fuel i st).width = st.width := by
  induction fuel with
  | zero => exact fun i st => ⟨rfl, rfl⟩
  | succ fuel ih =>
    intro i st
    rw [show marksPassAux (fuel + 1) i st =
      (match st.knowledge.get? i with
        | none => st
        | some s =>
          marksPassAux fuel (i+1)
            (match (markSafesStep st s).knowledge.get? i with
              | some t => markMinesStep (markSafesStep st s) t
              | none => markSafesStep st s)) from rfl]
    cases st.knowledge.get? i with
    | none => exact ⟨rfl, rfl⟩
    | some s =>
      simp only
      cases (markSafesStep st s).knowledge.get? i with
      | none =>
        refine ⟨(ih (i+1) _).1.trans (markSafesStep_dims st s).1,
          (ih (i+1) _).2.trans (markSafesStep_dims st s).2⟩
      | some t =>
        refine ⟨((ih (i+1) _).1.trans (markMinesStep_dims _ t).1).trans
          (markSafesStep_dims st s).1,
          ((ih (i+1) _).2.trans (markMinesStep_dims _ t).2).trans
            (markSafesStep_dims st s).2⟩

theorem passOf_dims (st : MinesweeperAI) :
    (passOf st).1.height = st.height ∧ (passOf st).1.width = st.width :=
  ⟨(marksPassAux_dims st.knowledge.length 0 st).1,
    (marksPassAux_dims st.knowledge.length 0 st).2⟩

theorem loopFuel_dims : ∀ (n : ℕ) (st st' : MinesweeperAI),
    loopFuel n st = some st' → st'.height = st.height ∧ st'.width = st.width := by
  intro n
  induction n with
  | zero => intro st st' h; cases h
  | succ n ih =>
    intro st st' h
    rw [show loopFuel (n + 1) st =
      (if (passOf st).1.knowledge = (passOf st).2 then some (passOf st).1
       else loopFuel n (passOf st).1) from rfl] at h
    split at h
    · cases h
      exact passOf_dims st
    · refine ⟨((ih (passOf st).1 st' h).1).trans (passOf_dims st).1,
        ((ih (passOf st).1 st' h).2).trans (passOf_dims st).2⟩

theorem add_knowledge_dims (st : MinesweeperAI) (cell : Cell) (count : ℤ) :
    (add_knowledge st cell count).height = st.height ∧
      (add_knowledge st cell count).width = st.width := by
  have h := loopFuel_dims (kbMeasure (add_knowledge_pre st cell count) + 1)
    (add_knowledge_pre st cell count) (runLoop (add_knowledge_pre st cell count))
    (loopFuel_runLoop _)
  have hp := add_knowledge_pre_spec st cell count
  exact ⟨h.1.trans hp.1, h.2.trans hp.2.1⟩

/-- Soundness of a whole game run: folding valid observations from any sound
state preserves the invariant (and the board dimensions). -/
theorem soundInv_runGame_aux {M : Finset Cell} (h w : ℤ) (obs : List Cell) :
    ∀ st : MinesweeperAI, st.height = h → st.width = w → SoundInv M st →
      (∀ c ∈ obs, c ∉ M) →
      SoundInv M (obs.foldl
        (fun st c => st.add_knowledge c (trueNeighborCount h w M c)) st) := by
  induction obs with
  | nil => exact fun st _ _ hinv _ => hinv
  | cons a obs ih =>
    intro st hh hw hinv hobs
    rw [List.foldl_cons]
    have hcount : trueNeighborCount h w M a =
        trueNeighborCount st.height st.width M a := by rw [hh, hw]
    refine ih (st.add_knowledge a (trueNeighborCount h w M a))
      ((add_knowledge_dims st a _).1.trans hh)
      ((add_knowledge_dims st a _).2.trans hw) ?_
      (fun c hc => hobs c (List.mem_cons_of_mem a hc))
    rw [hcount]
    exact soundInv_add_knowledge (hobs a (List.mem_cons_self a obs)) hinv

theorem soundInv_init (M : Finset Cell) (h w : ℤ) : SoundInv M (init h w) := by
  refine ⟨?_, ?_, ?_, ?_⟩ <;> intro x hx <;> cases hx

end MinesweeperAI

/-! ### Claim C1: soundness of the engine -/

/-- Claim C1: for every mine assignment `M` and every sequence of
`add_knowledge(cell, count)` calls in which each revealed cell is not a mine
and each count is the true number of `M`-mines among the revealed cell's
in-bounds neighbours, the final state records only real mines in `mines` and
no mine in `safes`. -/
theorem claim_C1_soundness (h w : ℤ) (M : Finset Cell) (obs : List Cell)
    (hobs : ∀ c ∈ obs, c ∉ M) :
    (∀ c ∈ (MinesweeperAI.runGame h w M obs).mines, c ∈ M) ∧
      (∀ c ∈ (MinesweeperAI.runGame h w M obs).safes, c ∉ M) := by
  have hinv := MinesweeperAI.soundInv_runGame_aux h w obs
    (MinesweeperAI.init h w) rfl rfl (MinesweeperAI.soundInv_init M h w) hobs
  exact ⟨hinv.1, hinv.2.1⟩

/-- Witness for claim C1: a 2×2 board with one mine at (1,1), revealing
(0,0) with its true neighbour count. -/
theorem claim_C1_witness :
    (∀ c ∈ [((0 : ℤ), (0 : ℤ))], c ∉ ({((1 : ℤ), (1 : ℤ))} : Finset Cell)) ∧
      ((∀ c ∈ (MinesweeperAI.runGame 2 2 {((1 : ℤ), (1 : ℤ))}
          [((0 : ℤ), (0 : ℤ))]).mines, c ∈ ({((1 : ℤ), (1 : ℤ))} : Finset Cell)) ∧
        (∀ c ∈ (MinesweeperAI.runGame 2 2 {((1 : ℤ), (1 : ℤ))}
          [((0 : ℤ), (0 : ℤ))]).safes, c ∉ ({((1 : ℤ), (1 : ℤ))} : Finset Cell))) :=
  ⟨by decide,
    claim_C1_soundness 2 2 {((1 : ℤ), (1 : ℤ))} [((0 : ℤ), (0 : ℤ))] (by decide)⟩
